import Mathlib

/-!
Verification development for `goroutines_pipeline`.

A shallow embedding of the image-processing pipeline of the repository
(`main.go` and `image_processing/image_processing.go`).

Modelling conventions.

* A Go value of interface type that may be `nil` (`image.Image`, `error`) is an
  `Option`; `nil` is `none`.
* An unbuffered channel with a single sending goroutine and a single receiving
  goroutine carries a finite sequence of values in FIFO order and is closed
  after the last one; it is modelled by the `List` of values sent over it.  A
  stage `for job := range input { ...; out <- job }; close(out)` is then the
  function mapping the list received to the list sent.
* Calls that leave the repository (`os.Open`, `image.Decode`, `os.MkdirAll`,
  `os.Create`, `jpeg.Encode`, `resize.Resize` of `github.com/nfnt/resize`) are
  parameters; they are deterministic functions of their arguments.
* `fmt.Printf` lines are recorded structurally (which format string, which
  arguments) in the order they are printed.
-/

set_option autoImplicit false

namespace GoStrings

/-- Go `strings.HasPrefix` on the characters of a string. -/
def HasPrefix : List Char → List Char → Bool
  | _, [] => true
  | [], _ :: _ => false
  | c :: s, d :: old => c == d && HasPrefix s old

/-- Go `strings.Index(s, old)`: the index of the first instance of `old` in `s`,
or `none` (Go returns `-1`) when `old` is not present. -/
def Index : List Char → List Char → Option Nat
  | [], old => if old.isEmpty then some 0 else none
  | c :: s, old =>
    if HasPrefix (c :: s) old then some 0
    else (Index s old).map (· + 1)

/-- Go `strings.Count(s, old)` for a non-empty `old`: the number of
non-overlapping instances of `old` in `s` (for an empty `old` Go returns the
number of code points plus one). -/
def Count (s old : List Char) : Nat :=
  if old.isEmpty then s.length + 1 else go (s.length + 1) s
where
  /-- Loop of `Count`: find the next instance, skip it, count on. -/
  go : Nat → List Char → Nat
    | 0, _ => 0
    | fuel + 1, s =>
      match Index s old with
      | none => 0
      | some i => 1 + go fuel (s.drop (i + old.length))

/-- The replacement loop of Go `strings.Replace` for a non-empty `old`:
`n` more replacements are applied to the unread remainder `s`. -/
def replaceLoop (old new : List Char) : Nat → List Char → List Char
  | 0, s => s
  | n + 1, s =>
    match Index s old with
    | none => s
    | some j => s.take j ++ new ++ replaceLoop old new n (s.drop (j + old.length))

/-- Go `strings.Replace(s, old, new, n)` for a non-empty `old`
(a negative `n` means no limit on the number of replacements). -/
def Replace (s old new : List Char) (n : Int) : List Char :=
  if old = new ∨ n = 0 then s
  else
    let m := Count s old
    if m = 0 then s
    else
      let k := if n < 0 ∨ (m : Int) < n then m else n.toNat
      replaceLoop old new k s

end GoStrings

/-- Go `strings.Replace` on strings. -/
def GoStrings.ReplaceString (s old new : String) (n : Int) : String :=
  ⟨GoStrings.Replace s.data old.data new.data n⟩

/-! ## `float64` arithmetic

A finite `float64` is the rational number it denotes.  Every value computed by
`Resize` lies between `2^(-64)` and `2^73`, far inside the normal range, so an
operation is the exact operation followed by rounding to a 53-bit significand
(round to nearest, ties to even); subnormal numbers, infinities and NaN are
not modelled. -/
namespace F64

/-- Round a rational to the nearest integer, ties to the even one. -/
def roundHalfEven (x : ℚ) : ℤ :=
  let f := ⌊x⌋
  let r := x - f
  if r < 1 / 2 then f
  else if 1 / 2 < r then f + 1
  else if f % 2 = 0 then f else f + 1

/-- Round a rational to the nearest `float64` (53-bit significand). -/
def round (q : ℚ) : ℚ :=
  if q = 0 then 0
  else
    let e := Int.log 2 |q|
    let ulp : ℚ := 2 ^ (e - 52)
    (roundHalfEven (q / ulp) : ℚ) * ulp

/-- Go conversion `float64(n)` of an unsigned integer. -/
def ofUint (n : Nat) : ℚ := round n

/-- Go `x * y` on `float64`. -/
def mul (x y : ℚ) : ℚ := round (x * y)

/-- Go `x / y` on `float64`, for `y ≠ 0`. -/
def div (x y : ℚ) : ℚ := round (x / y)

/-- Go conversion `uint(x)` of a non-negative `float64` below `2^64`: the
fraction is discarded. -/
def toUint (x : ℚ) : Nat := ⌊x⌋.toNat % 2 ^ 64

end F64

namespace imageprocessing

/-- Go `image.Point`. -/
structure Point where
  X : Int
  Y : Int

/-- Go `image.Rectangle`: the points with `Min.X ≤ x < Max.X`, `Min.Y ≤ y < Max.Y`. -/
structure Rectangle where
  Min : Point
  Max : Point

/-- The result of an operation on Go `int`s (64 bits), wrapped into
`[-2^63, 2^63)`. -/
def wrapInt (z : Int) : Int := (z + 2 ^ 63) % 2 ^ 64 - 2 ^ 63

/-- Go `Rectangle.Dx`: `Max.X - Min.X` in `int` arithmetic. -/
def Rectangle.Dx (r : Rectangle) : Int := wrapInt (r.Max.X - r.Min.X)

/-- Go `Rectangle.Dy`: `Max.Y - Min.Y` in `int` arithmetic. -/
def Rectangle.Dy (r : Rectangle) : Int := wrapInt (r.Max.Y - r.Min.Y)

/-- Go `Point.In`: whether the point `(x, y)` is in the rectangle. -/
def Rectangle.Contains (r : Rectangle) (x y : Int) : Bool :=
  decide (r.Min.X ≤ x) && decide (x < r.Max.X) && decide (r.Min.Y ≤ y) && decide (y < r.Max.Y)

/-- A Go `color.Color`: either a `color.Gray{Y}` or a colour of another dynamic
type, given by the four `uint32` results of its `RGBA()` method. -/
inductive Color where
  | Gray (Y : Nat)
  | Other (R G B A : Nat)

/-- Go `color.GrayModel.Convert` (function `grayModel` of `image/color`): a
`Gray` is returned as it is, any other colour is converted by the luminance
formula in `uint32` arithmetic, its result truncated to `uint8`. -/
def GrayModelConvert : Color → Color
  | .Gray y => .Gray y
  | .Other r g b _ =>
    .Gray (((19595 * r + 38470 * g + 7471 * b + 2 ^ 15) % 2 ^ 32 / 2 ^ 24) % 256)

/-- The type assertion `c.(color.Gray).Y` on a colour that is a `Gray`. -/
def Color.grayY : Color → Nat
  | .Gray y => y
  | .Other _ _ _ _ => 0

/-- A Go `image.Image` (an interface value): its bounds and its `At` method. -/
structure Image where
  Bounds : Rectangle
  At : Int → Int → Color

/-- Go `image.Gray`: one `uint8` per pixel, rows `Stride` apart. -/
structure Gray where
  Pix : List Nat
  Stride : Int
  Rect : Rectangle

/-- The struct that Go `image.NewGray(r)` builds when it returns: a zeroed
buffer of `Dx * Dy` bytes, rows `Dx` apart. -/
def newGrayBuffer (r : Rectangle) : Gray :=
  { Pix := List.replicate (r.Dx * r.Dy).toNat 0, Stride := r.Dx, Rect := r }

/-- Go `image.NewGray(r)`; `none` is a panic.  It panics when a dimension is
negative or `Dx * Dy` is not an `int` (`pixelBufferLength`), and the
allocation `make([]uint8, Dx * Dy)` fails when the buffer is larger than
`maxAlloc`, the largest buffer the Go runtime grants. -/
def NewGray (maxAlloc : Nat) (r : Rectangle) : Option Gray :=
  if r.Dx < 0 ∨ r.Dy < 0 ∨ 2 ^ 63 ≤ r.Dx * r.Dy then none
  else if (maxAlloc : Int) < r.Dx * r.Dy then none
  else some (newGrayBuffer r)

/-- Go `(*Gray).PixOffset`. -/
def Gray.PixOffset (p : Gray) (x y : Int) : Int :=
  (y - p.Rect.Min.Y) * p.Stride + (x - p.Rect.Min.X) * 1

/-- Go `(*Gray).Set(x, y, c)`: nothing outside the rectangle, otherwise the
byte at `PixOffset(x, y)` becomes `color.GrayModel.Convert(c).(color.Gray).Y`. -/
def Gray.Set (p : Gray) (x y : Int) (c : Color) : Gray :=
  if !p.Rect.Contains x y then p
  else
    let i := p.PixOffset x y
    { p with Pix := p.Pix.set i.toNat (GrayModelConvert c).grayY }

/-- Go `(*Gray).GrayAt(x, y)`: `color.Gray{}` outside the rectangle, otherwise
the byte at `PixOffset(x, y)`. -/
def Gray.GrayAt (p : Gray) (x y : Int) : Nat :=
  if !p.Rect.Contains x y then 0
  else
    let i := p.PixOffset x y
    p.Pix.getD i.toNat 0

/-- A `*image.Gray` as an `image.Image`: `Bounds` is `Rect`, `At` is `GrayAt`. -/
def Gray.toImage (p : Gray) : Image :=
  { Bounds := p.Rect, At := fun x y => .Gray (p.GrayAt x y) }

/-- The two loops of `Grayscale` of `image_processing.go`, run on the buffer
`grayImg`: `y` from `Min.Y` while `y < Max.Y`, `x` from `Min.X` while
`x < Max.X`. -/
def grayscaleLoops (img : Image) (grayImg : Gray) : Gray :=
  let bounds := img.Bounds
  (List.range (bounds.Max.Y - bounds.Min.Y).toNat).foldl
    (fun (grayImg : Gray) (j : Nat) =>
      let y := bounds.Min.Y + (j : Int)
      (List.range (bounds.Max.X - bounds.Min.X).toNat).foldl
        (fun (grayImg : Gray) (i : Nat) =>
          let x := bounds.Min.X + (i : Int)
          let originalPixel := img.At x y
          let grayPixel := GrayModelConvert originalPixel
          grayImg.Set x y grayPixel)
        grayImg)
    grayImg

/-- Function `Grayscale` of `image_processing.go`; `none` is the panic of
`image.NewGray`, and `maxAlloc` is the largest buffer the Go runtime grants. -/
def Grayscale (maxAlloc : Nat) (img : Image) : Option Image :=
  let bounds := img.Bounds
  match NewGray maxAlloc bounds with
  | none => none
  | some grayImg => some (grayscaleLoops img grayImg).toImage

/-- The image that `Grayscale` returns when it returns, that is, when
`image.NewGray` returns its buffer. -/
def GrayscaleReturned (img : Image) : Image :=
  (grayscaleLoops img (newGrayBuffer img.Bounds)).toImage

/-- The target dimensions `(newWidth, newHeight)` computed by `Resize` from the
`uint` values `width` and `height`, both non-zero.  (With a zero dimension the
code converts NaN or an infinity with `uint(...)`, whose result depends on the
platform; that case is not modelled.) -/
def resizeDims (width height : Nat) : Nat × Nat :=
  let maxDimension : Nat := 500
  let d : Nat × Nat :=
    if width > height then
      (maxDimension,
        F64.toUint (F64.div (F64.mul (F64.ofUint height) (F64.ofUint maxDimension))
          (F64.ofUint width)))
    else
      (F64.toUint (F64.div (F64.mul (F64.ofUint width) (F64.ofUint maxDimension))
          (F64.ofUint height)),
        maxDimension)
  let newWidth := if d.1 < 1 then 1 else d.1
  let newHeight := if d.2 < 1 then 1 else d.2
  (newWidth, newHeight)

/-- Function `Resize` of `image_processing.go`; `resizeResize w h img` is
`resize.Resize(w, h, img, resize.Lanczos3)` of `github.com/nfnt/resize`.  The
conversion `uint(bounds.Dx())` of a 64-bit `int` is taken modulo `2^64`. -/
def Resize {Err : Type} (resizeResize : Nat → Nat → Image → Image) (img : Image) :
    Option Image × Option Err :=
  let bounds := img.Bounds
  let width := (bounds.Dx % 2 ^ 64).toNat
  let height := (bounds.Dy % 2 ^ 64).toNat
  let d := resizeDims width height
  let resizedImg := resizeResize d.1 d.2 img
  (some resizedImg, none)

/-- Function `ReadImage` of `image_processing.go`; `osOpen` is `os.Open` and
`imageDecode` is `image.Decode`, each returning its value or its error. -/
def ReadImage {Img Err File : Type} (osOpen : String → Except Err File)
    (imageDecode : File → Except Err Img) (path : String) : Option Img × Option Err :=
  match osOpen path with
  | .error err => (none, some err)
  | .ok inputFile =>
    match imageDecode inputFile with
    | .error err => (none, some err)
    | .ok img => (some img, none)

/-- Function `WriteImage` of `image_processing.go`; `filepathDir` is `filepath.Dir`,
`osMkdirAll dir` is `os.MkdirAll(dir, 0755)`, `osCreate` is `os.Create` and
`jpegEncode f img` is `jpeg.Encode` at quality 90. -/
def WriteImage {Img Err File : Type} (filepathDir : String → String)
    (osMkdirAll : String → Option Err) (osCreate : String → Except Err File)
    (jpegEncode : File → Option Img → Option Err) (path : String) (img : Option Img) :
    Option Err :=
  let dir := filepathDir path
  match osMkdirAll dir with
  | some err => some err
  | none =>
    match osCreate path with
    | .error err => some err
    | .ok outputFile =>
      match jpegEncode outputFile img with
      | some err => some err
      | none => none

end imageprocessing

/-! ## `main.go` -/

/-- The functions of package `imageprocessing` called by `main.go`; an
`image.Image` argument or result may be `nil`. -/
structure ImageProcessing (Img Err : Type) where
  ReadImage : String → Option Img × Option Err
  Resize : Option Img → Option Img × Option Err
  Grayscale : Option Img → Option Img
  WriteImage : String → Option Img → Option Err

/-- The struct `Job` of `main.go`. -/
structure Job (Img Err : Type) where
  InputPath : String
  Image : Option Img
  OutPath : String
  Error : Option Err

/-- A line printed by `processConcurrently` or `processSequentially`: the
format string and its arguments. -/
inductive Line (Err : Type) where
  | failedToProcess (inputPath : String) (err : Err)
  | successfullyProcessed (inputPath outPath : String)
  | failedToLoad (path : String) (err : Err)
  | failedToResize (path : String) (err : Err)
  | failedToSave (outPath : String) (err : Err)
  | concurrentCompleted (successes failures : Nat)
  | sequentialCompleted (successes failures : Nat)

/-- What a run of `processConcurrently` or `processSequentially` leaves behind:
the two counters, the lines printed, and for every increment of a counter the
source path of the item it was made for and whether it was `successCount`. -/
structure Run (Err : Type) where
  successCount : Nat
  failureCount : Nat
  printed : List (Line Err)
  tallied : List (String × Bool)

section Pipeline

variable {Img Err : Type}

/-- The body of the loop of `loadImage` for one path. -/
def loadImageJob (ip : ImageProcessing Img Err) (p : String) : Job Img Err :=
  let job : Job Img Err :=
    { InputPath := p
      Image := none
      OutPath := GoStrings.ReplaceString p "images/" "images/output/" 1
      Error := none }
  let r := ip.ReadImage p
  { job with Image := r.1, Error := r.2 }

/-- The stage `loadImage`: the jobs sent over the channel it returns. -/
def loadImage (ip : ImageProcessing Img Err) (paths : List String) : List (Job Img Err) :=
  paths.map (loadImageJob ip)

/-- The body of the loop of `resize` for one job. -/
def resizeJob (ip : ImageProcessing Img Err) (job : Job Img Err) : Job Img Err :=
  if job.Error.isSome then job
  else
    let r := ip.Resize job.Image
    { job with Image := r.1, Error := r.2 }

/-- The stage `resize`. -/
def resize (ip : ImageProcessing Img Err) (input : List (Job Img Err)) : List (Job Img Err) :=
  input.map (resizeJob ip)

/-- The body of the loop of `convertToGrayscale` for one job. -/
def convertToGrayscaleJob (ip : ImageProcessing Img Err) (job : Job Img Err) : Job Img Err :=
  if job.Error.isSome then job
  else { job with Image := ip.Grayscale job.Image }

/-- The stage `convertToGrayscale`. -/
def convertToGrayscale (ip : ImageProcessing Img Err) (input : List (Job Img Err)) :
    List (Job Img Err) :=
  input.map (convertToGrayscaleJob ip)

/-- The body of the loop of `saveImage` for one job. -/
def saveImageJob (ip : ImageProcessing Img Err) (job : Job Img Err) : Job Img Err :=
  if job.Error.isSome then job
  else { job with Error := ip.WriteImage job.OutPath job.Image }

/-- The stage `saveImage`. -/
def saveImage (ip : ImageProcessing Img Err) (input : List (Job Img Err)) : List (Job Img Err) :=
  input.map (saveImageJob ip)

/-- The channel `writeResults` of `processConcurrently`: the terminal jobs. -/
def writeResults (ip : ImageProcessing Img Err) (imagePaths : List String) : List (Job Img Err) :=
  let channel1 := loadImage ip imagePaths
  let channel2 := resize ip channel1
  let channel3 := convertToGrayscale ip channel2
  saveImage ip channel3

/-- A failure is counted and reported for the item with source `path`. -/
def Run.fail (st : Run Err) (path : String) (line : Line Err) : Run Err :=
  { st with
    failureCount := st.failureCount + 1
    printed := st.printed ++ [line]
    tallied := st.tallied ++ [(path, false)] }

/-- A success is counted and reported for the item with source `path`. -/
def Run.succeed (st : Run Err) (path : String) (line : Line Err) : Run Err :=
  { st with
    successCount := st.successCount + 1
    printed := st.printed ++ [line]
    tallied := st.tallied ++ [(path, true)] }

/-- The body of the collecting loop of `processConcurrently` for one terminal job. -/
def collectJob (st : Run Err) (job : Job Img Err) : Run Err :=
  match job.Error with
  | some err => st.fail job.InputPath (.failedToProcess job.InputPath err)
  | none => st.succeed job.InputPath (.successfullyProcessed job.InputPath job.OutPath)

/-- The function `processConcurrently` (without the timing). -/
def processConcurrently (ip : ImageProcessing Img Err) (imagePaths : List String) : Run Err :=
  let st := (writeResults ip imagePaths).foldl collectJob
    { successCount := 0, failureCount := 0, printed := [], tallied := [] }
  { st with printed := st.printed ++ [.concurrentCompleted st.successCount st.failureCount] }

/-- The body of the loop of `processSequentially` for one path. -/
def sequentialItem (ip : ImageProcessing Img Err) (st : Run Err) (path : String) : Run Err :=
  let outPath := GoStrings.ReplaceString path "images/" "images/output/" 1
  match ip.ReadImage path with
  | (_, some err) => st.fail path (.failedToLoad path err)
  | (img, none) =>
    match ip.Resize img with
    | (_, some err) => st.fail path (.failedToResize path err)
    | (img, none) =>
      let img := ip.Grayscale img
      match ip.WriteImage outPath img with
      | some err => st.fail path (.failedToSave outPath err)
      | none => st.succeed path (.successfullyProcessed path outPath)

/-- The function `processSequentially` (without the timing). -/
def processSequentially (ip : ImageProcessing Img Err) (imagePaths : List String) : Run Err :=
  let st := imagePaths.foldl (sequentialItem ip)
    { successCount := 0, failureCount := 0, printed := [], tallied := [] }
  { st with printed := st.printed ++ [.sequentialCompleted st.successCount st.failureCount] }

end Pipeline

/-- Package `imageprocessing` as `main.go` links it: the functions of
`image_processing.go` over the external calls they make.  `Resize` and
`Grayscale` dereference their argument, so a `nil` image (never produced by
`ReadImage` without an error) is left as it is.  A panic of `Grayscale` ends
the program before any terminal job exists; the field `Grayscale` is the image
it returns when it returns. -/
def imageprocessing.package {Err File : Type}
    (osOpen : String → Except Err File)
    (imageDecode : File → Except Err imageprocessing.Image)
    (resizeResize : Nat → Nat → imageprocessing.Image → imageprocessing.Image)
    (filepathDir : String → String)
    (osMkdirAll : String → Option Err)
    (osCreate : String → Except Err File)
    (jpegEncode : File → Option imageprocessing.Image → Option Err) :
    ImageProcessing imageprocessing.Image Err where
  ReadImage := imageprocessing.ReadImage osOpen imageDecode
  Resize := fun img =>
    match img with
    | some img => imageprocessing.Resize resizeResize img
    | none => (none, none)
  Grayscale := fun img => img.map imageprocessing.GrayscaleReturned
  WriteImage := imageprocessing.WriteImage filepathDir osMkdirAll osCreate jpegEncode

/-! ## Auxiliary definitions for the statements and proofs -/

section PipelineAux
variable {Img Err : Type}

/-- The terminal job of one path: the four loop bodies in pipeline order. -/
def terminalJob (ip : ImageProcessing Img Err) (p : String) : Job Img Err :=
  saveImageJob ip (convertToGrayscaleJob ip (resizeJob ip (loadImageJob ip p)))

/-- Whether the item with source `p` ends without an error. -/
def itemOk (ip : ImageProcessing Img Err) (p : String) : Bool :=
  (terminalJob ip p).Error.isNone

/-- The effect of one tally step on the counters and on the tally list. -/
def Run.Advanced (st st' : Run Err) (p : String) (ok : Bool) : Prop :=
  st'.tallied = st.tallied ++ [(p, ok)] ∧
  st'.successCount = st.successCount + (if ok then 1 else 0) ∧
  st'.failureCount = st.failureCount + (if ok then 0 else 1)

end PipelineAux

namespace imageprocessing

/-- The byte `Grayscale` stores for column `i` of row `j`. -/
def pixelValue (img : Image) (i j : ℕ) : ℕ :=
  (GrayModelConvert (img.At (img.Bounds.Min.X + (i : ℤ)) (img.Bounds.Min.Y + (j : ℤ)))).grayY

/-- The body of the inner loop of `Grayscale`: column `i` of row `j`. -/
def setPixel (img : Image) (j : ℕ) (grayImg : Gray) (i : ℕ) : Gray :=
  grayImg.Set (img.Bounds.Min.X + (i : ℤ)) (img.Bounds.Min.Y + (j : ℤ))
    (GrayModelConvert (img.At (img.Bounds.Min.X + (i : ℤ)) (img.Bounds.Min.Y + (j : ℤ))))

/-- The body of the outer loop of `Grayscale`: row `j`. -/
def setRow (img : Image) (grayImg : Gray) (j : ℕ) : Gray :=
  (List.range (img.Bounds.Max.X - img.Bounds.Min.X).toNat).foldl (setPixel img j) grayImg

end imageprocessing

/-! ## Example environments -/

/-- Example `os.Open`: every file opens. -/
def exampleOpen (_ : String) : Except String Unit := .ok ()

/-- Example `image.Decode`: every file decodes to a 2×1 image. -/
def exampleDecode (_ : Unit) : Except String imageprocessing.Image :=
  .ok { Bounds := ⟨⟨0, 0⟩, ⟨2, 1⟩⟩, At := fun _ _ => .Other 0 0 0 65535 }

/-- Example `resize.Resize`: a blank image of the size asked for. -/
def exampleResample (w h : Nat) (_ : imageprocessing.Image) : imageprocessing.Image :=
  { Bounds := ⟨⟨0, 0⟩, ⟨w, h⟩⟩, At := fun _ _ => .Other 0 0 0 65535 }

/-- Example `filepath.Dir` (its result is not looked at by the other examples). -/
def exampleDir (path : String) : String := path

/-- Example `os.MkdirAll`: the output directory cannot be created. -/
def exampleMkdirAllDenied (_ : String) : Option String := some "mkdir: permission denied"

/-- Example `os.Create`: every file is created. -/
def exampleCreate (_ : String) : Except String Unit := .ok ()

/-- Example `jpeg.Encode`: every image is encoded. -/
def exampleEncode (_ : Unit) (_ : Option imageprocessing.Image) : Option String := none

/-- An example environment: every file opens and decodes, and the output
directory cannot be created. -/
def exampleReadOnlyPackage : ImageProcessing imageprocessing.Image String :=
  imageprocessing.package exampleOpen exampleDecode exampleResample exampleDir
    exampleMkdirAllDenied exampleCreate exampleEncode

/-- An example of `ImageProcessing` over trivial images: loading fails for the
path `"missing.jpeg"` only, everything else succeeds. -/
def exampleCollaborators : ImageProcessing Unit String where
  ReadImage := fun p => if p = "missing.jpeg" then (none, some "no such file") else (some (), none)
  Resize := fun img => (img, none)
  Grayscale := fun img => img
  WriteImage := fun _ _ => none

/-- An example image whose bounds are not well-formed: `Max.X < Min.X`. -/
def exampleMalformedImage : imageprocessing.Image :=
  { Bounds := ⟨⟨0, 0⟩, ⟨-1, 1⟩⟩, At := fun _ _ => .Gray 0 }

/-- An example 2×2 image whose bounds start at `(-1, 2)`. -/
def exampleSmallImage : imageprocessing.Image :=
  { Bounds := ⟨⟨-1, 2⟩, ⟨1, 4⟩⟩
    At := fun x y => .Other (x.toNat * 1000) (y.toNat * 3000) 65535 65535 }

/-! ## Lemmas and theorems -/

section PipelineLemmas
variable {Img Err : Type}

theorem writeResults_eq_map (ip : ImageProcessing Img Err) (paths : List String) :
    writeResults ip paths = paths.map (terminalJob ip) := by
  simp [writeResults, saveImage, convertToGrayscale, resize, loadImage, terminalJob,
    List.map_map, Function.comp_def]

theorem resizeJob_paths (ip : ImageProcessing Img Err) (job : Job Img Err) :
    (resizeJob ip job).InputPath = job.InputPath ∧ (resizeJob ip job).OutPath = job.OutPath := by
  unfold resizeJob; split <;> simp

theorem convertToGrayscaleJob_paths (ip : ImageProcessing Img Err) (job : Job Img Err) :
    (convertToGrayscaleJob ip job).InputPath = job.InputPath ∧
      (convertToGrayscaleJob ip job).OutPath = job.OutPath := by
  unfold convertToGrayscaleJob; split <;> simp

theorem saveImageJob_paths (ip : ImageProcessing Img Err) (job : Job Img Err) :
    (saveImageJob ip job).InputPath = job.InputPath ∧
      (saveImageJob ip job).OutPath = job.OutPath := by
  unfold saveImageJob; split <;> simp

theorem terminalJob_InputPath (ip : ImageProcessing Img Err) (p : String) :
    (terminalJob ip p).InputPath = p := by
  simp [terminalJob, (saveImageJob_paths ip _).1, (convertToGrayscaleJob_paths ip _).1,
    (resizeJob_paths ip _).1, loadImageJob]

theorem terminalJob_OutPath (ip : ImageProcessing Img Err) (p : String) :
    (terminalJob ip p).OutPath = GoStrings.ReplaceString p "images/" "images/output/" 1 := by
  simp [terminalJob, (saveImageJob_paths ip _).2, (convertToGrayscaleJob_paths ip _).2,
    (resizeJob_paths ip _).2, loadImageJob]

theorem Run.fail_advanced (st : Run Err) (p : String) (line : Line Err) :
    Run.Advanced st (st.fail p line) p false := by
  simp [Run.Advanced, Run.fail]

theorem Run.succeed_advanced (st : Run Err) (p : String) (line : Line Err) :
    Run.Advanced st (st.succeed p line) p true := by
  simp [Run.Advanced, Run.succeed]

theorem collectJob_advanced (ip : ImageProcessing Img Err) (st : Run Err) (p : String) :
    Run.Advanced st (collectJob st (terminalJob ip p)) p (itemOk ip p) := by
  unfold collectJob itemOk
  rw [terminalJob_InputPath]
  cases h : (terminalJob ip p).Error with
  | none => simpa using Run.succeed_advanced st p _
  | some e => simpa using Run.fail_advanced st p _

theorem terminalJob_Error (ip : ImageProcessing Img Err) (p : String) :
    (terminalJob ip p).Error =
      match ip.ReadImage p with
      | (_, some err) => some err
      | (img, none) =>
        match ip.Resize img with
        | (_, some err) => some err
        | (img, none) =>
          ip.WriteImage (GoStrings.ReplaceString p "images/" "images/output/" 1)
            (ip.Grayscale img) := by
  unfold terminalJob loadImageJob
  rcases h1 : ip.ReadImage p with ⟨img, _ | e⟩
  · rcases h2 : ip.Resize img with ⟨img2, _ | e2⟩
    · simp [resizeJob, convertToGrayscaleJob, saveImageJob, h1, h2]
    · simp [resizeJob, convertToGrayscaleJob, saveImageJob, h1, h2]
  · simp [resizeJob, convertToGrayscaleJob, saveImageJob, h1]

theorem sequentialItem_advanced (ip : ImageProcessing Img Err) (st : Run Err) (p : String) :
    Run.Advanced st (sequentialItem ip st p) p (itemOk ip p) := by
  unfold itemOk
  rw [terminalJob_Error]
  unfold sequentialItem
  rcases h1 : ip.ReadImage p with ⟨img, _ | e⟩
  · dsimp only
    rcases h2 : ip.Resize img with ⟨img2, _ | e2⟩
    · dsimp only
      cases h3 : ip.WriteImage (GoStrings.ReplaceString p "images/" "images/output/" 1)
          (ip.Grayscale img2) with
      | none => simpa using Run.succeed_advanced st p _
      | some e => simpa using Run.fail_advanced st p _
    · simpa using Run.fail_advanced st p _
  · simpa using Run.fail_advanced st p _

/-- The counters and the tally list after a loop that advances once per path. -/
theorem foldl_advanced (ip : ImageProcessing Img Err) (step : Run Err → String → Run Err)
    (hstep : ∀ st p, Run.Advanced st (step st p) p (itemOk ip p))
    (paths : List String) (st : Run Err) :
    (paths.foldl step st).tallied = st.tallied ++ paths.map (fun p => (p, itemOk ip p)) ∧
    (paths.foldl step st).successCount = st.successCount + paths.countP (itemOk ip) ∧
    (paths.foldl step st).failureCount
      = st.failureCount + paths.countP (fun p => !itemOk ip p) := by
  induction paths generalizing st with
  | nil => simp
  | cons p ps ih =>
    obtain ⟨h1, h2, h3⟩ := hstep st p
    obtain ⟨i1, i2, i3⟩ := ih (step st p)
    simp only [List.foldl_cons, List.map_cons, List.countP_cons]
    refine ⟨?_, ?_, ?_⟩
    · rw [i1, h1]; simp
    · rw [i2, h2]; cases itemOk ip p <;> simp; omega
    · rw [i3, h3]; cases itemOk ip p <;> simp; omega

theorem processConcurrently_tally (ip : ImageProcessing Img Err) (paths : List String) :
    (processConcurrently ip paths).tallied = paths.map (fun p => (p, itemOk ip p)) ∧
    (processConcurrently ip paths).successCount = paths.countP (itemOk ip) ∧
    (processConcurrently ip paths).failureCount = paths.countP (fun p => !itemOk ip p) := by
  have h := foldl_advanced ip (fun st p => collectJob st (terminalJob ip p))
    (fun st p => collectJob_advanced ip st p) paths
    { successCount := 0, failureCount := 0, printed := [], tallied := [] }
  simp only [processConcurrently, writeResults_eq_map, List.foldl_map]
  simpa using h

theorem processSequentially_tally (ip : ImageProcessing Img Err) (paths : List String) :
    (processSequentially ip paths).tallied = paths.map (fun p => (p, itemOk ip p)) ∧
    (processSequentially ip paths).successCount = paths.countP (itemOk ip) ∧
    (processSequentially ip paths).failureCount = paths.countP (fun p => !itemOk ip p) := by
  have h := foldl_advanced ip (sequentialItem ip)
    (fun st p => sequentialItem_advanced ip st p) paths
    { successCount := 0, failureCount := 0, printed := [], tallied := [] }
  simp only [processSequentially]
  simpa using h

theorem countP_add_countP_not {α : Type} (f : α → Bool) (l : List α) :
    l.countP f + l.countP (fun a => !f a) = l.length := by
  induction l with
  | nil => simp
  | cons a l ih => simp only [List.countP_cons, List.length_cons]; cases f a <;> simp <;> omega

end PipelineLemmas

section PipelineClaims
variable {Img Err : Type}

/-- C1. For every list of source paths and every behaviour of the collaborators,
`processConcurrently` and `processSequentially` each handle exactly one terminal
outcome per path: the tally lists the source paths in order, one entry each, and
`successCount + failureCount` is the number of paths, `successCount` counting the
entries tallied as successes and `failureCount` those tallied as failures. -/
theorem C1_every_input_tallied_once (ip : ImageProcessing Img Err) (imagePaths : List String) :
    ((writeResults ip imagePaths).length = imagePaths.length ∧
      (processConcurrently ip imagePaths).tallied.length = imagePaths.length ∧
      (processConcurrently ip imagePaths).tallied.map Prod.fst = imagePaths ∧
      (processConcurrently ip imagePaths).successCount
        = ((processConcurrently ip imagePaths).tallied.filter (fun t => t.2)).length ∧
      (processConcurrently ip imagePaths).failureCount
        = ((processConcurrently ip imagePaths).tallied.filter (fun t => !t.2)).length ∧
      (processConcurrently ip imagePaths).successCount
        + (processConcurrently ip imagePaths).failureCount = imagePaths.length) ∧
    ((processSequentially ip imagePaths).tallied.length = imagePaths.length ∧
      (processSequentially ip imagePaths).tallied.map Prod.fst = imagePaths ∧
      (processSequentially ip imagePaths).successCount
        = ((processSequentially ip imagePaths).tallied.filter (fun t => t.2)).length ∧
      (processSequentially ip imagePaths).failureCount
        = ((processSequentially ip imagePaths).tallied.filter (fun t => !t.2)).length ∧
      (processSequentially ip imagePaths).successCount
        + (processSequentially ip imagePaths).failureCount = imagePaths.length) := by
  obtain ⟨c1, c2, c3⟩ := processConcurrently_tally ip imagePaths
  obtain ⟨s1, s2, s3⟩ := processSequentially_tally ip imagePaths
  have hf : ∀ l : List String,
      ((l.map (fun p => (p, itemOk ip p))).filter (fun t => t.2)).length = l.countP (itemOk ip) := by
    intro l; rw [List.filter_map, List.length_map, List.countP_eq_length_filter]; rfl
  have hg : ∀ l : List String,
      ((l.map (fun p => (p, itemOk ip p))).filter (fun t => !t.2)).length
        = l.countP (fun p => !itemOk ip p) := by
    intro l; rw [List.filter_map, List.length_map, List.countP_eq_length_filter]; rfl
  have hm : ∀ l : List String, (l.map (fun p => (p, itemOk ip p))).map Prod.fst = l := by
    intro l; simp [List.map_map, Function.comp_def]
  refine ⟨⟨?_, ?_, ?_, ?_, ?_, ?_⟩, ?_, ?_, ?_, ?_, ?_⟩
  · simp [writeResults_eq_map]
  · simp [c1]
  · rw [c1, hm]
  · rw [c1, c2, hf]
  · rw [c1, c3, hg]
  · rw [c2, c3, countP_add_countP_not]
  · simp [s1]
  · rw [s1, hm]
  · rw [s1, s2, hf]
  · rw [s1, s3, hg]
  · rw [s2, s3, countP_add_countP_not]

/-- C2. With the collaborators deterministic functions of their arguments, the
concurrent pipeline and `processSequentially` produce, for every list of source
paths, the same multiset of (source path, success-or-failure) outcomes, and the
same success and failure counts. -/
theorem C2_concurrent_sequential_same_outcomes (ip : ImageProcessing Img Err)
    (imagePaths : List String) :
    ((processConcurrently ip imagePaths).tallied : Multiset (String × Bool))
        = ((processSequentially ip imagePaths).tallied : Multiset (String × Bool)) ∧
      ((processConcurrently ip imagePaths).tallied : Multiset (String × Bool))
        = ((writeResults ip imagePaths).map
            (fun job => (job.InputPath, job.Error.isNone)) : List (String × Bool)) ∧
      (processConcurrently ip imagePaths).successCount
        = (processSequentially ip imagePaths).successCount ∧
      (processConcurrently ip imagePaths).failureCount
        = (processSequentially ip imagePaths).failureCount := by
  obtain ⟨c1, c2, c3⟩ := processConcurrently_tally ip imagePaths
  obtain ⟨s1, s2, s3⟩ := processSequentially_tally ip imagePaths
  refine ⟨by rw [c1, s1], ?_, by rw [c2, s2], by rw [c3, s3]⟩
  rw [c1, writeResults_eq_map, List.map_map]
  congr 1
  apply List.map_congr_left
  intro p _
  simp [itemOk, terminalJob_InputPath]

/-- C3. A job whose `Error` is already set is forwarded by each of `resize`,
`convertToGrayscale` and `saveImage` unchanged in all four fields, whatever the
collaborators are; so through the three stages in a row a job that entered with
an error leaves as the same job, with the same error. -/
theorem C3_failed_job_forwarded_unchanged (ip : ImageProcessing Img Err) (job : Job Img Err)
    (hErr : job.Error ≠ none) :
    resizeJob ip job = job ∧ convertToGrayscaleJob ip job = job ∧ saveImageJob ip job = job ∧
      saveImageJob ip (convertToGrayscaleJob ip (resizeJob ip job)) = job ∧
      (∀ (input : List (Job Img Err)) (i : Nat), input[i]? = some job →
        (resize ip input)[i]? = some job ∧
        (convertToGrayscale ip input)[i]? = some job ∧
        (saveImage ip input)[i]? = some job ∧
        (saveImage ip (convertToGrayscale ip (resize ip input)))[i]? = some job) := by
  have hs : job.Error.isSome = true := by
    cases h : job.Error with
    | none => exact absurd h hErr
    | some e => rfl
  have h1 : resizeJob ip job = job := by simp [resizeJob, hs]
  have h2 : convertToGrayscaleJob ip job = job := by simp [convertToGrayscaleJob, hs]
  have h3 : saveImageJob ip job = job := by simp [saveImageJob, hs]
  refine ⟨h1, h2, h3, by rw [h1, h2, h3], ?_⟩
  intro input i hi
  simp [resize, convertToGrayscale, saveImage, List.getElem?_map, hi, h1, h2, h3]

/-- C5. The terminal jobs are in one-to-one correspondence with the inputs: the
chain emits as many jobs as there are paths, the `InputPath`s of the terminal jobs
are the input paths (in order, hence as multisets), every stage emits as many
jobs as it receives, and every stage returns each job with the `InputPath` and
`OutPath` it received. -/
theorem C5_one_terminal_job_per_input (ip : ImageProcessing Img Err) (paths : List String) :
    (writeResults ip paths).length = paths.length ∧
      (writeResults ip paths).map (fun job => job.InputPath) = paths ∧
      (((writeResults ip paths).map (fun job => job.InputPath) : List String) : Multiset String)
        = (paths : Multiset String) ∧
      (loadImage ip paths).length = paths.length ∧
      (loadImage ip paths).map (fun job => job.InputPath) = paths ∧
      (∀ input : List (Job Img Err),
        (resize ip input).length = input.length ∧
        (convertToGrayscale ip input).length = input.length ∧
        (saveImage ip input).length = input.length) ∧
      (∀ job : Job Img Err,
        ((resizeJob ip job).InputPath = job.InputPath ∧
          (resizeJob ip job).OutPath = job.OutPath) ∧
        ((convertToGrayscaleJob ip job).InputPath = job.InputPath ∧
          (convertToGrayscaleJob ip job).OutPath = job.OutPath) ∧
        ((saveImageJob ip job).InputPath = job.InputPath ∧
          (saveImageJob ip job).OutPath = job.OutPath)) ∧
      (∀ (input : List (Job Img Err)) (i : Nat) (job : Job Img Err), input[i]? = some job →
        ∃ out, (saveImage ip (convertToGrayscale ip (resize ip input)))[i]? = some out ∧
          out.InputPath = job.InputPath ∧ out.OutPath = job.OutPath) := by
  have hmap : (writeResults ip paths).map (fun job => job.InputPath) = paths := by
    rw [writeResults_eq_map, List.map_map]
    conv_rhs => rw [← List.map_id paths]
    apply List.map_congr_left
    intro p _
    simp [terminalJob_InputPath]
  refine ⟨by simp [writeResults_eq_map], hmap, by rw [hmap], by simp [loadImage], ?_, ?_, ?_, ?_⟩
  · simp [loadImage, List.map_map, Function.comp_def, loadImageJob]
  · intro input; simp [resize, convertToGrayscale, saveImage]
  · intro job
    exact ⟨resizeJob_paths ip job, convertToGrayscaleJob_paths ip job, saveImageJob_paths ip job⟩
  · intro input i job hi
    refine ⟨saveImageJob ip (convertToGrayscaleJob ip (resizeJob ip job)), ?_, ?_, ?_⟩
    · simp [resize, convertToGrayscale, saveImage, List.getElem?_map, hi]
    · rw [(saveImageJob_paths ip _).1, (convertToGrayscaleJob_paths ip _).1,
        (resizeJob_paths ip _).1]
    · rw [(saveImageJob_paths ip _).2, (convertToGrayscaleJob_paths ip _).2,
        (resizeJob_paths ip _).2]

end PipelineClaims

section C4

/-- C4, as stated, fails at the save stage: when the output directory cannot be
created, the terminal job of `images/image1.jpeg` carries the save error and
still carries its image. -/
theorem C4_save_failure_keeps_image :
    ∃ job ∈ writeResults exampleReadOnlyPackage ["images/image1.jpeg"],
      job.Error = some "mkdir: permission denied" ∧ job.Image.isSome = true ∧
      ¬ (job.Image.isSome = true ↔ job.Error = none) := by
  refine ⟨terminalJob exampleReadOnlyPackage "images/image1.jpeg", ?_, ?_, ?_, ?_⟩
  · simp [writeResults_eq_map]
  · rfl
  · rfl
  · intro h
    have h1 : (terminalJob exampleReadOnlyPackage "images/image1.jpeg").Image.isSome = true := rfl
    have h2 := h.1 h1
    exact absurd h2 (by
      show (terminalJob exampleReadOnlyPackage "images/image1.jpeg").Error ≠ none
      intro h3
      have h4 : (terminalJob exampleReadOnlyPackage "images/image1.jpeg").Error
          = some "mkdir: permission denied" := rfl
      rw [h4] at h3
      exact Option.noConfusion h3)

end C4

section C4Amended
variable {Err File : Type}

theorem package_ReadImage_shape (osOpen : String → Except Err File)
    (imageDecode : File → Except Err imageprocessing.Image) (p : String) :
    (∃ img, imageprocessing.ReadImage osOpen imageDecode p = (some img, none)) ∨
    (∃ e, imageprocessing.ReadImage osOpen imageDecode p = (none, some e)) := by
  unfold imageprocessing.ReadImage
  cases osOpen p with
  | error e => exact Or.inr ⟨e, rfl⟩
  | ok f =>
    dsimp only
    cases imageDecode f with
    | error e => exact Or.inr ⟨e, rfl⟩
    | ok img => exact Or.inl ⟨img, rfl⟩

/-- C4, amended. With package `imageprocessing` as it is in the repository, every
terminal job carries the failure of the stage that failed for it: a job whose
load fails ends with the error of `ReadImage` and no image; `Resize` never
returns an error; a job whose save fails ends with the error of `WriteImage` and
keeps the grayscale image that could not be written.  A terminal job without an
error has an image, and a terminal job without an image has an error. -/
theorem C4_failure_reaches_terminal_job
    (osOpen : String → Except Err File)
    (imageDecode : File → Except Err imageprocessing.Image)
    (resizeResize : Nat → Nat → imageprocessing.Image → imageprocessing.Image)
    (filepathDir : String → String)
    (osMkdirAll : String → Option Err)
    (osCreate : String → Except Err File)
    (jpegEncode : File → Option imageprocessing.Image → Option Err)
    (paths : List String) :
    ∀ job ∈ writeResults (imageprocessing.package osOpen imageDecode resizeResize filepathDir
        osMkdirAll osCreate jpegEncode) paths,
      job.InputPath ∈ paths ∧
      (∀ e, (imageprocessing.ReadImage osOpen imageDecode job.InputPath).2 = some e →
        job.Error = some e ∧ job.Image = none) ∧
      (∀ img, (@imageprocessing.Resize Err resizeResize img).2 = none) ∧
      (∀ img, imageprocessing.ReadImage osOpen imageDecode job.InputPath = (some img, none) →
        job.Image = some (imageprocessing.GrayscaleReturned
          (resizeResize
            (imageprocessing.resizeDims (img.Bounds.Dx % 2 ^ 64).toNat
              (img.Bounds.Dy % 2 ^ 64).toNat).1
            (imageprocessing.resizeDims (img.Bounds.Dx % 2 ^ 64).toNat
              (img.Bounds.Dy % 2 ^ 64).toNat).2 img)) ∧
        job.Error = imageprocessing.WriteImage filepathDir osMkdirAll osCreate jpegEncode
          job.OutPath job.Image) ∧
      (job.Error = none → job.Image ≠ none) ∧
      (job.Image = none → job.Error ≠ none) := by
  intro job hjob
  rw [writeResults_eq_map, List.mem_map] at hjob
  obtain ⟨p, hp, rfl⟩ := hjob
  rw [terminalJob_InputPath]
  have key : ∀ img, imageprocessing.ReadImage osOpen imageDecode p = (some img, none) →
      (terminalJob (imageprocessing.package osOpen imageDecode resizeResize filepathDir
        osMkdirAll osCreate jpegEncode) p).Image = some (imageprocessing.GrayscaleReturned
          (resizeResize
            (imageprocessing.resizeDims (img.Bounds.Dx % 2 ^ 64).toNat
              (img.Bounds.Dy % 2 ^ 64).toNat).1
            (imageprocessing.resizeDims (img.Bounds.Dx % 2 ^ 64).toNat
              (img.Bounds.Dy % 2 ^ 64).toNat).2 img)) ∧
      (terminalJob (imageprocessing.package osOpen imageDecode resizeResize filepathDir
        osMkdirAll osCreate jpegEncode) p).Error
        = imageprocessing.WriteImage filepathDir osMkdirAll osCreate jpegEncode
          (terminalJob (imageprocessing.package osOpen imageDecode resizeResize filepathDir
            osMkdirAll osCreate jpegEncode) p).OutPath
          (terminalJob (imageprocessing.package osOpen imageDecode resizeResize filepathDir
            osMkdirAll osCreate jpegEncode) p).Image := by
    intro img himg
    simp [terminalJob, loadImageJob, resizeJob, convertToGrayscaleJob, saveImageJob,
      imageprocessing.package, himg, imageprocessing.Resize]
  have keyErr : ∀ e, imageprocessing.ReadImage osOpen imageDecode p = (none, some e) →
      (terminalJob (imageprocessing.package osOpen imageDecode resizeResize filepathDir
        osMkdirAll osCreate jpegEncode) p).Error = some e ∧
      (terminalJob (imageprocessing.package osOpen imageDecode resizeResize filepathDir
        osMkdirAll osCreate jpegEncode) p).Image = none := by
    intro e he
    simp [terminalJob, loadImageJob, resizeJob, convertToGrayscaleJob, saveImageJob,
      imageprocessing.package, he]
  refine ⟨hp, ?_, ?_, key, ?_, ?_⟩
  · intro e he
    rcases package_ReadImage_shape osOpen imageDecode p with ⟨img, h⟩ | ⟨e', h⟩
    · rw [h] at he; exact absurd he (by simp)
    · rw [h] at he
      have : e' = e := by simpa using he
      subst this
      exact keyErr e' h
  · intro img; rfl
  · intro hnone
    rcases package_ReadImage_shape osOpen imageDecode p with ⟨img, h⟩ | ⟨e', h⟩
    · rw [(key img h).1]; simp
    · rw [(keyErr e' h).1] at hnone; exact absurd hnone (by simp)
  · intro hnone
    rcases package_ReadImage_shape osOpen imageDecode p with ⟨img, h⟩ | ⟨e', h⟩
    · rw [(key img h).1] at hnone; exact absurd hnone (by simp)
    · rw [(keyErr e' h).1]; simp

end C4Amended

/-- Witness for C4: the terminal job of `images/image1.jpeg` when the output
directory cannot be created. -/
theorem C4_failure_reaches_terminal_job_witness :
    terminalJob exampleReadOnlyPackage "images/image1.jpeg"
        ∈ writeResults exampleReadOnlyPackage ["images/image1.jpeg"] ∧
      ((terminalJob exampleReadOnlyPackage "images/image1.jpeg").Image = none →
        (terminalJob exampleReadOnlyPackage "images/image1.jpeg").Error ≠ none) :=
  ⟨by simp [writeResults_eq_map],
    (C4_failure_reaches_terminal_job exampleOpen exampleDecode exampleResample exampleDir
      exampleMkdirAllDenied exampleCreate exampleEncode ["images/image1.jpeg"]
      (terminalJob exampleReadOnlyPackage "images/image1.jpeg")
      (by simp [writeResults_eq_map, exampleReadOnlyPackage])).2.2.2.2.2⟩

/-- Witness for C3: a job that failed to load passes the three later stages
unchanged. -/
theorem C3_failed_job_forwarded_unchanged_witness :
    (loadImageJob exampleCollaborators "missing.jpeg").Error ≠ none ∧
    resizeJob exampleCollaborators (loadImageJob exampleCollaborators "missing.jpeg")
      = loadImageJob exampleCollaborators "missing.jpeg" :=
  ⟨by decide,
    (C3_failed_job_forwarded_unchanged exampleCollaborators
      (loadImageJob exampleCollaborators "missing.jpeg") (by decide)).1⟩

namespace GoStrings

theorem HasPrefix_iff (s old : List Char) : HasPrefix s old = true ↔ ∃ post, s = old ++ post := by
  induction old generalizing s with
  | nil => cases s <;> simp [HasPrefix]
  | cons d old ih =>
    cases s with
    | nil => simp [HasPrefix]
    | cons c s =>
      simp only [HasPrefix, Bool.and_eq_true, beq_iff_eq, ih, List.cons_append, List.cons.injEq]
      constructor
      · rintro ⟨rfl, post, rfl⟩; exact ⟨post, rfl, rfl⟩
      · rintro ⟨post, rfl, rfl⟩; exact ⟨rfl, post, rfl⟩

/-- Function `Index` finds nothing exactly when `old` occurs nowhere in `s`. -/
theorem Index_eq_none_iff (s old : List Char) :
    Index s old = none ↔ ∀ pre post, s ≠ pre ++ old ++ post := by
  induction s with
  | nil =>
    cases old with
    | nil => simp [Index]
    | cons d old =>
      simp only [Index, List.isEmpty_cons, Bool.false_eq_true, if_false, true_iff]
      intro pre post h
      have := congrArg List.length h
      simp at this
      omega
  | cons c s ih =>
    unfold Index
    by_cases hp : HasPrefix (c :: s) old = true
    · obtain ⟨post, h⟩ := (HasPrefix_iff _ _).1 hp
      simp only [hp, if_true]
      constructor
      · intro h0; exact Option.noConfusion h0
      · intro h0; exact absurd (by simpa using h) (h0 [] post)
    · simp only [hp, Bool.false_eq_true, if_false, Option.map_eq_none', ih]
      constructor
      · intro h pre post heq
        cases pre with
        | nil =>
          apply hp
          exact (HasPrefix_iff _ _).2 ⟨post, by simpa using heq⟩
        | cons a pre =>
          simp only [List.cons_append, List.cons.injEq] at heq
          exact h pre post (by simpa using heq.2)
      · intro h pre post heq
        exact h (c :: pre) post (by simp [heq])

/-- Function `Index` returns the position of the leftmost occurrence of `old` in `s`. -/
theorem Index_eq_some (s old : List Char) (j : Nat) (h : Index s old = some j) :
    (∃ post, s = s.take j ++ old ++ post ∧ s.drop (j + old.length) = post) ∧
      (s.take j).length = j ∧
      ∀ pre post, s = pre ++ old ++ post → j ≤ pre.length := by
  induction s generalizing j with
  | nil =>
    cases old with
    | nil =>
      simp only [Index, List.isEmpty_nil, if_true, Option.some.injEq] at h
      subst h; simp
    | cons d old => simp [Index] at h
  | cons c s ih =>
    unfold Index at h
    by_cases hp : HasPrefix (c :: s) old = true
    · simp only [hp, if_true, Option.some.injEq] at h
      subst h
      obtain ⟨post, hpost⟩ := (HasPrefix_iff _ _).1 hp
      refine ⟨⟨post, by simpa using hpost, ?_⟩, by simp, by simp⟩
      rw [hpost]; simp
    · simp only [hp, Bool.false_eq_true, if_false, Option.map_eq_some'] at h
      obtain ⟨j', hj', rfl⟩ := h
      obtain ⟨⟨post, h1, h2⟩, h3, h4⟩ := ih j' hj'
      refine ⟨⟨post, ?_, ?_⟩, ?_, ?_⟩
      · simp only [List.take_succ_cons, List.cons_append, List.cons.injEq, true_and]
        exact h1
      · rw [show j' + 1 + old.length = (j' + old.length) + 1 by omega]
        simpa using h2
      · simp [h3]
      · intro pre post' heq
        cases pre with
        | nil =>
          exfalso; apply hp
          exact (HasPrefix_iff _ _).2 ⟨post', by simpa using heq⟩
        | cons a pre =>
          simp only [List.cons_append, List.cons.injEq] at heq
          have := h4 pre post' (by simpa using heq.2)
          simp; omega

theorem Count_eq_zero_iff (s old : List Char) (hold : old ≠ []) :
    Count s old = 0 ↔ Index s old = none := by
  have he : old.isEmpty = false := by cases old <;> simp_all
  unfold Count
  simp only [he, Bool.false_eq_true, if_false]
  unfold Count.go
  cases h : Index s old with
  | none => simp
  | some i => simp

/-- Go `strings.Replace(s, old, new, 1)` for a non-empty `old` different from `new`:
the leftmost occurrence of `old`, if there is one, is replaced by `new`. -/
theorem Replace_one (s old new : List Char) (hold : old ≠ []) (hne : old ≠ new) :
    Replace s old new 1 =
      match Index s old with
      | none => s
      | some j => s.take j ++ new ++ s.drop (j + old.length) := by
  unfold Replace
  simp only [hne, one_ne_zero, or_self, if_false]
  cases h : Index s old with
  | none =>
    have := (Count_eq_zero_iff s old hold).2 h
    simp [this]
  | some j =>
    have hc : Count s old ≠ 0 := by
      intro h0
      rw [(Count_eq_zero_iff s old hold).1 h0] at h
      exact Option.noConfusion h
    have hk : (if (1 : Int) < 0 ∨ ((Count s old : Nat) : Int) < 1 then Count s old
        else (1 : Int).toNat) = 1 := by
      have : ¬ ((1 : Int) < 0 ∨ ((Count s old : Nat) : Int) < 1) := by omega
      rw [if_neg this]; rfl
    simp only [hc, if_false, hk]
    simp [replaceLoop, h]

/-- The leftmost occurrence of `old` is the one `Replace` with `n = 1` replaces. -/
theorem Replace_one_leftmost (s old new pre post : List Char) (hold : old ≠ [])
    (hne : old ≠ new) (hs : s = pre ++ old ++ post)
    (hleft : ∀ pre' post', s = pre' ++ old ++ post' → pre.length ≤ pre'.length) :
    Replace s old new 1 = pre ++ new ++ post := by
  rw [Replace_one s old new hold hne]
  cases h : Index s old with
  | none => exact absurd hs ((Index_eq_none_iff s old).1 h pre post)
  | some j =>
    obtain ⟨⟨post0, h1, h2⟩, h3, h4⟩ := Index_eq_some s old j h
    have hj : j = pre.length := le_antisymm (h4 pre post hs) (by
      have := hleft (s.take j) post0 h1
      rwa [h3] at this)
    have e1 : s.take j = pre := by rw [hj, hs]; simp
    have e2 : s.drop (j + old.length) = post := by
      rw [hj, hs, List.append_assoc, ← List.drop_drop]; simp
    simp only [e1, e2]

/-- Without an occurrence of `old`, `Replace` returns its argument. -/
theorem Replace_one_absent (s old new : List Char) (hold : old ≠ []) (hne : old ≠ new)
    (habs : ∀ pre post, s ≠ pre ++ old ++ post) : Replace s old new 1 = s := by
  rw [Replace_one s old new hold hne, (Index_eq_none_iff s old).2 habs]

/-- An occurrence of `old` gives a leftmost occurrence. -/
theorem exists_leftmost (s old : List Char) (hocc : ∃ pre post, s = pre ++ old ++ post) :
    ∃ pre post, s = pre ++ old ++ post ∧
      ∀ pre' post', s = pre' ++ old ++ post' → pre.length ≤ pre'.length := by
  cases h : Index s old with
  | none =>
    obtain ⟨pre, post, hs⟩ := hocc
    exact absurd hs ((Index_eq_none_iff s old).1 h pre post)
  | some j =>
    obtain ⟨⟨post0, h1, _⟩, h3, h4⟩ := Index_eq_some s old j h
    exact ⟨s.take j, post0, h1, fun pre' post' hs => by rw [h3]; exact h4 pre' post' hs⟩

end GoStrings

/-- C10. The destination path computed in `loadImage` and in
`processSequentially` is the source path with the leftmost occurrence of the
substring `images/` replaced by `images/output/`, wherever it occurs: what
precedes and what follows that occurrence is kept; a path with an occurrence
has a leftmost one; a path without an occurrence is its own destination.  This
is the `OutPath` of the job `loadImage` builds, and the path that
`processSequentially` hands to `WriteImage` and prints. -/
theorem C10_destination_replaces_leftmost_segment (p : String) :
    (∀ pre post : List Char, p.toList = pre ++ "images/".toList ++ post →
      (∀ pre' post' : List Char, p.toList = pre' ++ "images/".toList ++ post' →
        pre.length ≤ pre'.length) →
      (GoStrings.ReplaceString p "images/" "images/output/" 1).toList
        = pre ++ "images/output/".toList ++ post) ∧
    ((∃ pre post : List Char, p.toList = pre ++ "images/".toList ++ post) →
      ∃ pre post : List Char, p.toList = pre ++ "images/".toList ++ post ∧
        (∀ pre' post' : List Char, p.toList = pre' ++ "images/".toList ++ post' →
          pre.length ≤ pre'.length) ∧
        (GoStrings.ReplaceString p "images/" "images/output/" 1).toList
          = pre ++ "images/output/".toList ++ post) ∧
    ((∀ pre post : List Char, p.toList ≠ pre ++ "images/".toList ++ post) →
      GoStrings.ReplaceString p "images/" "images/output/" 1 = p) ∧
    (∀ (Img Err : Type) (ip : ImageProcessing Img Err),
      (loadImageJob ip p).OutPath = GoStrings.ReplaceString p "images/" "images/output/" 1) ∧
    (∀ (Img Err : Type) (ip : ImageProcessing Img Err) (st : Run Err) (img img' : Option Img),
      ip.ReadImage p = (img, none) → ip.Resize img = (img', none) →
      sequentialItem ip st p =
        match ip.WriteImage (GoStrings.ReplaceString p "images/" "images/output/" 1)
            (ip.Grayscale img') with
        | some err =>
          st.fail p (.failedToSave (GoStrings.ReplaceString p "images/" "images/output/" 1) err)
        | none =>
          st.succeed p
            (.successfullyProcessed p
              (GoStrings.ReplaceString p "images/" "images/output/" 1))) := by
  have hold : "images/".toList ≠ [] := by decide
  have hne : "images/".toList ≠ "images/output/".toList := by decide
  have hA : ∀ pre post : List Char, p.toList = pre ++ "images/".toList ++ post →
      (∀ pre' post' : List Char, p.toList = pre' ++ "images/".toList ++ post' →
        pre.length ≤ pre'.length) →
      (GoStrings.ReplaceString p "images/" "images/output/" 1).toList
        = pre ++ "images/output/".toList ++ post := by
    intro pre post hs hleft
    exact GoStrings.Replace_one_leftmost p.toList _ _ pre post hold hne hs hleft
  refine ⟨hA, ?_, ?_, ?_, ?_⟩
  · intro hocc
    obtain ⟨pre, post, hs, hleft⟩ := GoStrings.exists_leftmost p.toList _ hocc
    exact ⟨pre, post, hs, hleft, hA pre post hs hleft⟩
  · intro habs
    have := GoStrings.Replace_one_absent p.toList _ "images/output/".toList hold hne habs
    unfold GoStrings.ReplaceString
    show String.mk (GoStrings.Replace p.toList "images/".toList "images/output/".toList 1) = p
    rw [this]
    rfl
  · intro Img Err ip; rfl
  · intro Img Err ip st img img' h1 h2
    unfold sequentialItem
    rw [h1]
    dsimp only
    rw [h2]

/-- Witness for C10: `images/` in the middle of a path, and a second occurrence
left alone. -/
theorem C10_destination_replaces_leftmost_segment_witness :
    (GoStrings.ReplaceString "data/images/a/images/b.jpeg" "images/" "images/output/" 1).toList
      = "data/".toList ++ "images/output/".toList ++ "a/images/b.jpeg".toList :=
  (C10_destination_replaces_leftmost_segment "data/images/a/images/b.jpeg").1
    "data/".toList "a/images/b.jpeg".toList (by decide) (by
      intro pre' post' h
      by_contra hlt
      have hlen : pre'.length < 5 := by simpa using hlt
      have h5 := congrArg (List.take 12) h
      rcases pre' with _ | ⟨a, _ | ⟨b, _ | ⟨c, _ | ⟨d, _ | ⟨e, t⟩⟩⟩⟩⟩
      · revert h5; simp
      · revert h5; simp
      · revert h5; simp
      · revert h5; simp
      · revert h5; simp
      · simp at hlen; omega)

namespace F64

theorem roundHalfEven_intCast (n : ℤ) : roundHalfEven (n : ℚ) = n := by
  unfold roundHalfEven
  simp

theorem floor_le_roundHalfEven (x : ℚ) : ⌊x⌋ ≤ roundHalfEven x := by
  unfold roundHalfEven
  dsimp only
  split_ifs <;> omega

theorem roundHalfEven_le (x : ℚ) : (roundHalfEven x : ℚ) ≤ x + 1 / 2 := by
  unfold roundHalfEven
  dsimp only
  have h1 : (⌊x⌋ : ℚ) ≤ x := Int.floor_le x
  split_ifs with h2 h3
  · linarith
  · push_cast; linarith
  · linarith
  · have : x - ⌊x⌋ = 1 / 2 := le_antisymm (not_lt.1 h3) (not_lt.1 h2)
    push_cast; linarith

/-- A positive value below `2^53` has a non-positive exponent offset: `round`
scales by `2^s`, rounds to an integer and scales back, and the scaled value is
at least `2^52`. -/
theorem round_pos (q : ℚ) (hq : 0 < q) (hlt : q < 2 ^ 53) :
    ∃ s : ℕ, (2 : ℚ) ^ 52 ≤ q * 2 ^ s ∧
      round q = (roundHalfEven (q * 2 ^ s) : ℚ) / 2 ^ s := by
  have h2 : (1 : ℚ) < 2 := by norm_num
  have hlo : ((2 : ℕ) : ℚ) ^ Int.log 2 q ≤ q := Int.zpow_log_le_self (by norm_num) hq
  have he : Int.log 2 q < 53 := by
    have : ((2 : ℕ) : ℚ) ^ Int.log 2 q < ((2 : ℕ) : ℚ) ^ (53 : ℤ) := by
      refine lt_of_le_of_lt hlo ?_
      have e53 : ((2 : ℕ) : ℚ) ^ (53 : ℤ) = 2 ^ 53 := by norm_num
      rw [e53]; exact hlt
    exact (zpow_lt_zpow_iff_right₀ (by norm_num : (1 : ℚ) < ((2 : ℕ) : ℚ))).1 this
  obtain ⟨s, hs⟩ := Int.eq_ofNat_of_zero_le (show (0 : ℤ) ≤ 52 - Int.log 2 q by omega)
  have hulp : (2 : ℚ) ^ (Int.log 2 q - 52) = ((2 : ℚ) ^ s)⁻¹ := by
    rw [show Int.log 2 q - 52 = -(s : ℤ) by omega, zpow_neg, zpow_natCast]
  have hpow : (2 : ℚ) ^ Int.log 2 q * 2 ^ s = 2 ^ 52 := by
    rw [← zpow_natCast (2 : ℚ) s, ← zpow_add₀ (by norm_num : (2 : ℚ) ≠ 0)]
    rw [show Int.log 2 q + (s : ℤ) = 52 by omega]
    norm_num
  refine ⟨s, ?_, ?_⟩
  · rw [← hpow]
    have hlo' : (2 : ℚ) ^ Int.log 2 q ≤ q := by simpa using hlo
    exact mul_le_mul_of_nonneg_right hlo' (by positivity)
  · unfold round
    rw [if_neg (ne_of_gt hq), abs_of_pos hq]
    dsimp only
    rw [hulp, div_inv_eq_mul, div_eq_mul_inv]

/-- A natural number below `2^53` is a `float64`: converting it is exact. -/
theorem ofUint_exact (n : ℕ) (hn : n < 2 ^ 53) : ofUint n = n := by
  unfold ofUint
  rcases Nat.eq_zero_or_pos n with rfl | hpos
  · simp [round]
  · have hq : (0 : ℚ) < n := by exact_mod_cast hpos
    have hlt : (n : ℚ) < 2 ^ 53 := by exact_mod_cast hn
    obtain ⟨s, _, hr⟩ := round_pos n hq hlt
    rw [hr]
    have : ((n : ℚ) * 2 ^ s) = (((n * 2 ^ s : ℕ) : ℤ) : ℚ) := by push_cast; ring
    rw [this, roundHalfEven_intCast]
    push_cast
    field_simp

/-- The product of two `float64` integers whose product is below `2^53` is exact. -/
theorem mul_exact (a b : ℕ) (h : a * b < 2 ^ 53) : mul a b = ((a * b : ℕ) : ℚ) := by
  have := ofUint_exact (a * b) h
  unfold ofUint at this
  unfold mul
  rw [← this]; push_cast; rfl

/-- Dividing a natural number below `2^53` by a positive natural number in
`float64` and discarding the fraction gives the integer quotient. -/
theorem toUint_div (p w : ℕ) (hp : p < 2 ^ 53) (hw : 0 < w) :
    toUint (div p w) = p / w := by
  rcases Nat.eq_zero_or_pos p with rfl | hpos
  · simp [div, round, toUint]
  have hwq : (0 : ℚ) < w := by exact_mod_cast hw
  have hpq : (0 : ℚ) < p := by exact_mod_cast hpos
  have hq : (0 : ℚ) < (p : ℚ) / w := div_pos hpq hwq
  have hqle : (p : ℚ) / w ≤ p := div_le_self hpq.le (by exact_mod_cast hw)
  have hlt : (p : ℚ) / w < 2 ^ 53 := lt_of_le_of_lt hqle (by exact_mod_cast hp)
  obtain ⟨s, hs, hr⟩ := round_pos _ hq hlt
  have h2s : (0 : ℚ) < 2 ^ s := by positivity
  -- the integer quotient
  have hk1 : (p / w) * w ≤ p := Nat.div_mul_le_self p w
  have hk2 : p + 1 ≤ (p / w + 1) * w := by
    have := Nat.lt_succ_iff.1 (Nat.lt_succ_of_le (le_refl p))
    have h3 := Nat.div_add_mod p w
    have h4 := Nat.mod_lt p hw
    nlinarith
  have hk1q : ((p / w : ℕ) : ℚ) * w ≤ p := by exact_mod_cast hk1
  have hk2q : (p : ℚ) + 1 ≤ (((p / w : ℕ) : ℚ) + 1) * w := by exact_mod_cast hk2
  -- `w < 2^(s+1)`
  have hw2 : (w : ℚ) < 2 ^ (s + 1) := by
    have h5 : (2 : ℚ) ^ 52 * w ≤ p * 2 ^ s := by
      have := mul_le_mul_of_nonneg_right hs hwq.le
      rwa [show (p : ℚ) / w * 2 ^ s * w = p * 2 ^ s by field_simp] at this
    have h6 : (p : ℚ) * 2 ^ s < 2 ^ 53 * 2 ^ s :=
      mul_lt_mul_of_pos_right (by exact_mod_cast hp) h2s
    have h7 : (2 : ℚ) ^ 52 * w < 2 ^ 52 * 2 ^ (s + 1) := by
      calc (2 : ℚ) ^ 52 * w ≤ p * 2 ^ s := h5
        _ < 2 ^ 53 * 2 ^ s := h6
        _ = 2 ^ 52 * 2 ^ (s + 1) := by ring
    exact lt_of_mul_lt_mul_left h7 (by positivity)
  set x : ℚ := (p : ℚ) / w * 2 ^ s with hx
  -- lower bound on the rounded significand
  have hlow : (((p / w : ℕ) : ℚ)) * 2 ^ s ≤ (roundHalfEven x : ℚ) := by
    have h8 : (((p / w * 2 ^ s : ℕ) : ℤ) : ℚ) ≤ x := by
      push_cast
      rw [hx]
      apply mul_le_mul_of_nonneg_right _ h2s.le
      rw [le_div_iff₀ hwq]; exact hk1q
    have h9 : ((p / w * 2 ^ s : ℕ) : ℤ) ≤ ⌊x⌋ := Int.le_floor.2 h8
    have h10 := le_trans h9 (floor_le_roundHalfEven x)
    have : (((p / w * 2 ^ s : ℕ) : ℤ) : ℚ) ≤ (roundHalfEven x : ℚ) := by exact_mod_cast h10
    simpa using this
  -- upper bound on the rounded significand
  have hupp : (roundHalfEven x : ℚ) < (((p / w : ℕ) : ℚ) + 1) * 2 ^ s := by
    have h11 := roundHalfEven_le x
    have h12 : x ≤ (((p / w : ℕ) : ℚ) + 1) * 2 ^ s - 2 ^ s / w := by
      rw [hx]
      have : (p : ℚ) / w ≤ (((p / w : ℕ) : ℚ) + 1) - 1 / w := by
        rw [div_le_iff₀ hwq]
        have : ((((p / w : ℕ) : ℚ) + 1) - 1 / w) * w = (((p / w : ℕ) : ℚ) + 1) * w - 1 := by
          field_simp
        rw [this]; linarith
      calc (p : ℚ) / w * 2 ^ s ≤ ((((p / w : ℕ) : ℚ) + 1) - 1 / w) * 2 ^ s :=
            mul_le_mul_of_nonneg_right this h2s.le
        _ = (((p / w : ℕ) : ℚ) + 1) * 2 ^ s - 2 ^ s / w := by ring
    have h13 : (1 : ℚ) / 2 < 2 ^ s / w := by
      rw [lt_div_iff₀ hwq]
      have : (2 : ℚ) ^ (s + 1) = 2 * 2 ^ s := by ring
      rw [this] at hw2
      linarith
    linarith
  have hfloor : ⌊(roundHalfEven x : ℚ) / 2 ^ s⌋ = ((p / w : ℕ) : ℤ) := by
    rw [Int.floor_eq_iff]
    constructor
    · rw [le_div_iff₀ h2s]; push_cast; exact hlow
    · rw [div_lt_iff₀ h2s]; push_cast; exact hupp
  unfold toUint div
  rw [hr, hfloor, Int.toNat_ofNat]
  apply Nat.mod_eq_of_lt
  calc p / w ≤ p := Nat.div_le_self p w
    _ < 2 ^ 53 := hp
    _ < 2 ^ 64 := by norm_num

theorem two_zpow_log_le (q : ℚ) (hq : 0 < q) : (2 : ℚ) ^ Int.log 2 q ≤ q := by
  have h : ((2 : ℕ) : ℚ) ^ Int.log 2 q ≤ q := Int.zpow_log_le_self (by norm_num) hq
  simpa using h

theorem lt_two_zpow_log_succ (q : ℚ) : q < (2 : ℚ) ^ (Int.log 2 q + 1) := by
  have h : q < ((2 : ℕ) : ℚ) ^ (Int.log 2 q + 1) := Int.lt_zpow_succ_log_self (by norm_num) q
  simpa using h

/-- Rounding keeps a positive value inside its binade: between `2^e` and
`2^(e+1)` for the exponent `e` of the value. -/
theorem round_binade (q : ℚ) (hq : 0 < q) :
    (2 : ℚ) ^ Int.log 2 q ≤ round q ∧ round q ≤ (2 : ℚ) ^ (Int.log 2 q + 1) := by
  have hlo := two_zpow_log_le q hq
  have hhi := lt_two_zpow_log_succ q
  set e := Int.log 2 q with he
  have hulp : (0 : ℚ) < 2 ^ (e - 52) := by positivity
  have e1 : (2 : ℚ) ^ e = 2 ^ 52 * 2 ^ (e - 52) := by
    rw [← zpow_natCast (2 : ℚ) 52, ← zpow_add₀ (by norm_num : (2 : ℚ) ≠ 0)]
    congr 1; push_cast; ring
  have e2 : (2 : ℚ) ^ (e + 1) = 2 ^ 53 * 2 ^ (e - 52) := by
    rw [← zpow_natCast (2 : ℚ) 53, ← zpow_add₀ (by norm_num : (2 : ℚ) ≠ 0)]
    congr 1; push_cast; ring
  have hx1 : (2 : ℚ) ^ 52 ≤ q / 2 ^ (e - 52) := by
    rw [le_div_iff₀ hulp, ← e1]; exact hlo
  have hx2 : q / 2 ^ (e - 52) < 2 ^ 53 := by
    rw [div_lt_iff₀ hulp, ← e2]; exact hhi
  have hr1 : ((2 : ℤ) ^ 52) ≤ roundHalfEven (q / 2 ^ (e - 52)) := by
    refine le_trans (Int.le_floor.2 ?_) (floor_le_roundHalfEven _)
    push_cast; exact hx1
  have hr2 : roundHalfEven (q / 2 ^ (e - 52)) ≤ (2 : ℤ) ^ 53 := by
    have h := roundHalfEven_le (q / 2 ^ (e - 52))
    have h' : (roundHalfEven (q / 2 ^ (e - 52)) : ℚ) < ((2 ^ 53 + 1 : ℤ) : ℚ) := by
      push_cast; linarith
    have := Int.cast_lt.1 h'
    omega
  have hround : round q = (roundHalfEven (q / 2 ^ (e - 52)) : ℚ) * 2 ^ (e - 52) := by
    unfold round
    rw [if_neg (ne_of_gt hq), abs_of_pos hq]
  rw [hround, e1, e2]
  constructor
  · apply mul_le_mul_of_nonneg_right _ hulp.le
    have : (((2 : ℤ) ^ 52 : ℤ) : ℚ) ≤ (roundHalfEven (q / 2 ^ (e - 52)) : ℚ) :=
      Int.cast_le.2 hr1
    simpa using this
  · apply mul_le_mul_of_nonneg_right _ hulp.le
    have : (roundHalfEven (q / 2 ^ (e - 52)) : ℚ) ≤ (((2 : ℤ) ^ 53 : ℤ) : ℚ) :=
      Int.cast_le.2 hr2
    simpa using this

/-- Converting an unsigned integer of at least `2^53` gives at least `2^53`. -/
theorem ofUint_large (n : ℕ) (hn : 2 ^ 53 ≤ n) : (2 : ℚ) ^ 53 ≤ ofUint n := by
  have hq : (0 : ℚ) < n := by
    have : 0 < n := lt_of_lt_of_le (by norm_num) hn
    exact_mod_cast this
  obtain ⟨h1, _⟩ := round_binade n hq
  have hhi := lt_two_zpow_log_succ (n : ℚ)
  have h53 : (2 : ℚ) ^ (53 : ℤ) ≤ n := by
    have h : ((2 ^ 53 : ℕ) : ℚ) ≤ n := by exact_mod_cast hn
    have e : (2 : ℚ) ^ (53 : ℤ) = ((2 ^ 53 : ℕ) : ℚ) := by norm_num
    rw [e]; exact h
  have hlt : (2 : ℚ) ^ (53 : ℤ) < (2 : ℚ) ^ (Int.log 2 (n : ℚ) + 1) := lt_of_le_of_lt h53 hhi
  have he : (53 : ℤ) < Int.log 2 (n : ℚ) + 1 :=
    (zpow_lt_zpow_iff_right₀ (by norm_num : (1 : ℚ) < 2)).1 hlt
  have : (2 : ℚ) ^ (53 : ℤ) ≤ (2 : ℚ) ^ Int.log 2 (n : ℚ) :=
    zpow_le_zpow_right₀ (by norm_num) (by omega)
  unfold ofUint
  calc (2 : ℚ) ^ 53 = (2 : ℚ) ^ (53 : ℤ) := by norm_num
    _ ≤ (2 : ℚ) ^ Int.log 2 (n : ℚ) := this
    _ ≤ round n := h1

/-- A quotient below one half is rounded to a value below 1, which `uint`
truncates to 0. -/
theorem toUint_round_small (q : ℚ) (h0 : 0 ≤ q) (hq : q < 1 / 2) : toUint (round q) = 0 := by
  rcases eq_or_lt_of_le h0 with h | hpos
  · rw [← h]; simp [round, toUint]
  obtain ⟨h1, h2⟩ := round_binade q hpos
  have hlo := two_zpow_log_le q hpos
  have hlt : (2 : ℚ) ^ Int.log 2 q < (2 : ℚ) ^ (-1 : ℤ) := by
    refine lt_of_le_of_lt hlo (lt_of_lt_of_le hq ?_)
    norm_num
  have he : Int.log 2 q < -1 := (zpow_lt_zpow_iff_right₀ (by norm_num : (1 : ℚ) < 2)).1 hlt
  have h3 : (2 : ℚ) ^ (Int.log 2 q + 1) ≤ (2 : ℚ) ^ (-1 : ℤ) :=
    zpow_le_zpow_right₀ (by norm_num) (by omega)
  have h4 : round q < 1 := by
    calc round q ≤ (2 : ℚ) ^ (Int.log 2 q + 1) := h2
      _ ≤ (2 : ℚ) ^ (-1 : ℤ) := h3
      _ < 1 := by norm_num
  have h5 : 0 ≤ round q := le_trans (by positivity) h1
  have : ⌊round q⌋ = 0 := by
    rw [Int.floor_eq_iff]; constructor
    · simpa using h5
    · simpa using h4
  unfold toUint
  rw [this]; rfl

/-- The exponent of a positive value between `2^e` and `2^(e+1)` is `e`. -/
theorem log_eq_of_binade (q : ℚ) (e : ℤ) (hq : 0 < q) (h1 : (2 : ℚ) ^ e ≤ q)
    (h2 : q < (2 : ℚ) ^ (e + 1)) : Int.log 2 q = e := by
  have a1 : ((2 : ℕ) : ℚ) ^ e ≤ q := by simpa using h1
  have a2 : q < ((2 : ℕ) : ℚ) ^ (e + 1) := by simpa using h2
  have b1 := (Int.zpow_le_iff_le_log (by norm_num : 1 < 2) hq).1 a1
  have b2 := (Int.lt_zpow_iff_log_lt (by norm_num : 1 < 2) hq).1 a2
  omega

/-- Rounding a positive value whose exponent is known. -/
theorem round_of_binade (q : ℚ) (e : ℤ) (hq : 0 < q) (h1 : (2 : ℚ) ^ e ≤ q)
    (h2 : q < (2 : ℚ) ^ (e + 1)) :
    round q = (roundHalfEven (q / 2 ^ (e - 52)) : ℚ) * 2 ^ (e - 52) := by
  unfold round
  rw [if_neg (ne_of_gt hq), abs_of_pos hq]
  dsimp only
  rw [log_eq_of_binade q e hq h1 h2]

theorem ofUint_two_pow_53 : ofUint (2 ^ 53) = 2 ^ 53 := by
  unfold ofUint
  rw [round_of_binade _ 53 (by positivity) (by norm_num) (by norm_num)]
  have : (((2 ^ 53 : ℕ) : ℚ) / 2 ^ ((53 : ℤ) - 52)) = (((2 ^ 52 : ℕ) : ℤ) : ℚ) := by norm_num
  rw [this, roundHalfEven_intCast]
  norm_num

theorem ofUint_two_pow_53_succ : ofUint (2 ^ 53 + 1) = 2 ^ 53 := by
  unfold ofUint
  rw [round_of_binade _ 53 (by positivity) (by norm_num) (by norm_num)]
  have hfl : ⌊(((2 ^ 53 + 1 : ℕ) : ℚ) / 2 ^ ((53 : ℤ) - 52))⌋ = 2 ^ 52 := by
    rw [Int.floor_eq_iff]; norm_num
  have hr : roundHalfEven (((2 ^ 53 + 1 : ℕ) : ℚ) / 2 ^ ((53 : ℤ) - 52)) = 2 ^ 52 := by
    unfold roundHalfEven
    simp only [hfl]
    norm_num
  rw [hr]
  norm_num

theorem mul_two_pow_53_500 : mul (2 ^ 53) 500 = 500 * 2 ^ 53 := by
  unfold mul
  rw [round_of_binade _ 61 (by positivity) (by norm_num) (by norm_num)]
  have : ((2 : ℚ) ^ 53 * 500 / 2 ^ ((61 : ℤ) - 52)) = (((500 * 2 ^ 44 : ℕ) : ℤ) : ℚ) := by
    norm_num
  rw [this, roundHalfEven_intCast]
  norm_num

theorem div_500 : div (500 * 2 ^ 53) (2 ^ 53) = 500 := by
  unfold div
  have h : ((500 : ℚ) * 2 ^ 53 / 2 ^ 53) = ((500 : ℕ) : ℚ) := by norm_num
  rw [h]
  have := ofUint_exact 500 (by norm_num)
  unfold ofUint at this
  rw [this]; norm_num

end F64

namespace imageprocessing

/-- The quotient `a * 500 / b` as `Resize` computes it in `float64`, for an
image with fewer than `2^63` pixels. -/
theorem scaled_quotient (a b : ℕ) (ha : 1 ≤ a) (hab : a ≤ b) (hpix : a * b < 2 ^ 63) :
    F64.toUint (F64.div (F64.mul (F64.ofUint a) (F64.ofUint 500)) (F64.ofUint b))
      = a * 500 / b := by
  have ha32 : a < 2 ^ 32 := by
    by_contra hcon
    have h1 : 2 ^ 32 ≤ a := not_lt.1 hcon
    have h2 : 2 ^ 32 ≤ b := le_trans h1 hab
    have : 2 ^ 32 * 2 ^ 32 ≤ a * b := Nat.mul_le_mul h1 h2
    omega
  have h53 : a * 500 < 2 ^ 53 := by omega
  rw [F64.ofUint_exact a (by omega), F64.ofUint_exact 500 (by norm_num), F64.mul_exact a 500 h53]
  by_cases hb : b < 2 ^ 53
  · rw [F64.ofUint_exact b hb]
    exact F64.toUint_div (a * 500) b h53 (by omega)
  · have hb' : 2 ^ 53 ≤ b := not_lt.1 hb
    have ha10 : a ≤ 2 ^ 10 := by
      by_contra hcon
      have h1 : 2 ^ 10 + 1 ≤ a := by omega
      have : (2 ^ 10 + 1) * 2 ^ 53 ≤ a * b := Nat.mul_le_mul h1 hb'
      omega
    have hq0 : a * 500 / b = 0 := Nat.div_eq_of_lt (by omega)
    rw [hq0]
    have hbig := F64.ofUint_large b hb'
    have hpos : (0 : ℚ) < F64.ofUint b := lt_of_lt_of_le (by positivity) hbig
    unfold F64.div
    apply F64.toUint_round_small
    · exact div_nonneg (by positivity) hpos.le
    · rw [div_lt_iff₀ hpos]
      have h1 : ((a * 500 : ℕ) : ℚ) ≤ 2 ^ 19 := by
        have : a * 500 ≤ 2 ^ 19 := by omega
        exact_mod_cast this
      nlinarith

/-- The target dimensions in integer arithmetic, for an image with fewer than
`2^63` pixels. -/
theorem resizeDims_eq (width height : ℕ) (hw : 1 ≤ width) (hh : 1 ≤ height)
    (hpix : width * height < 2 ^ 63) :
    resizeDims width height =
      if width > height then (500, max 1 (height * 500 / width))
      else (max 1 (width * 500 / height), 500) := by
  unfold resizeDims
  by_cases h : width > height
  · simp only [h, if_true]
    rw [scaled_quotient height width hh (by omega) (by rw [Nat.mul_comm]; exact hpix)]
    generalize height * 500 / width = x
    ext
    · simp
    · simp only [Nat.lt_one_iff]
      split_ifs with h0 <;> omega
  · simp only [h, if_false]
    rw [scaled_quotient width height hw (by omega) hpix]
    generalize width * 500 / height = x
    ext
    · simp only [Nat.lt_one_iff]
      split_ifs with h0 <;> omega
    · simp

end imageprocessing

namespace imageprocessing

theorem resizeDims_two_pow_53 : resizeDims (2 ^ 53 + 1) (2 ^ 53) = (500, 500) := by
  unfold resizeDims
  have hgt : (2 ^ 53 + 1 : ℕ) > 2 ^ 53 := by norm_num
  simp only [hgt, if_true]
  rw [F64.ofUint_two_pow_53, F64.ofUint_two_pow_53_succ, F64.ofUint_exact 500 (by norm_num)]
  have h500 : ((500 : ℕ) : ℚ) = 500 := by norm_num
  rw [h500, F64.mul_two_pow_53_500, F64.div_500]
  have ht : F64.toUint 500 = 500 := by
    unfold F64.toUint
    have : ⌊(500 : ℚ)⌋ = 500 := by
      rw [Int.floor_eq_iff]; norm_num
    rw [this]; rfl
  rw [ht]
  rfl

/-- C6, as stated, fails for an image of width `2^53 + 1` and height `2^53`:
`float64(width)` rounds to `2^53`, the quotient is exactly 500 and `Resize`
computes the height 500, while `floor(height * 500 / width)` is 499. -/
theorem C6_float64_rounding_counterexample :
    (1 ≤ 2 ^ 53 + 1 ∧ 1 ≤ 2 ^ 53 ∧ 2 ^ 53 + 1 > 2 ^ 53) ∧
      resizeDims (2 ^ 53 + 1) (2 ^ 53) = (500, 500) ∧
      max 1 (2 ^ 53 * 500 / (2 ^ 53 + 1)) = 499 ∧
      ¬ ((resizeDims (2 ^ 53 + 1) (2 ^ 53)).2 = max 1 (2 ^ 53 * 500 / (2 ^ 53 + 1))) := by
  refine ⟨by norm_num, resizeDims_two_pow_53, by norm_num, ?_⟩
  rw [resizeDims_two_pow_53]
  norm_num

/-- C6, amended. For an image of width and height at least 1 (with fewer than `2^63`
pixels, as any image whose pixel count is a Go `int`), the larger of the target
dimensions computed by `Resize` is 500 and neither exceeds 500; the other one is
`max(1, floor(smaller * 500 / larger))`; the width becomes 500 when
`width > height`, otherwise the height does.  These are the dimensions `Resize`
passes to the resampling library.  100×100 gives 500×500, 800×400 gives 500×250,
400×800 gives 250×500 and 50×50 gives 500×500. -/
theorem C6_resize_target_dimensions (width height : ℕ) (hw : 1 ≤ width) (hh : 1 ≤ height)
    (hpix : width * height < 2 ^ 63) :
    max (resizeDims width height).1 (resizeDims width height).2 = 500 ∧
      (resizeDims width height).1 ≤ 500 ∧ (resizeDims width height).2 ≤ 500 ∧
      (width > height → (resizeDims width height).1 = 500 ∧
        (resizeDims width height).2 = max 1 (height * 500 / width)) ∧
      (¬ width > height → (resizeDims width height).2 = 500 ∧
        (resizeDims width height).1 = max 1 (width * 500 / height)) ∧
      min (resizeDims width height).1 (resizeDims width height).2
        = max 1 ⌊((min width height : ℕ) : ℚ) * 500 / ((max width height : ℕ) : ℚ)⌋₊ ∧
      (∀ (Err : Type) (resizeResize : ℕ → ℕ → Image → Image) (img : Image),
        img.Bounds.Dx = width → img.Bounds.Dy = height →
        @Resize Err resizeResize img
          = (some (resizeResize (resizeDims width height).1 (resizeDims width height).2 img),
              none)) ∧
      resizeDims 100 100 = (500, 500) ∧ resizeDims 800 400 = (500, 250) ∧
      resizeDims 400 800 = (250, 500) ∧ resizeDims 50 50 = (500, 500) := by
  have hd := resizeDims_eq width height hw hh hpix
  have hw63 : width < 2 ^ 63 := lt_of_le_of_lt (Nat.le_mul_of_pos_right width hh) hpix
  have hh63 : height < 2 ^ 63 := lt_of_le_of_lt (Nat.le_mul_of_pos_left height hw) hpix
  have hfl : ∀ a b : ℕ, ⌊((a : ℕ) : ℚ) * 500 / ((b : ℕ) : ℚ)⌋₊ = a * 500 / b := by
    intro a b
    have : ((a : ℕ) : ℚ) * 500 = ((a * 500 : ℕ) : ℚ) := by push_cast; ring
    rw [this, Nat.floor_div_eq_div]
  by_cases h : width > height
  · rw [if_pos h] at hd
    have hk : height * 500 / width < 500 := by
      rw [Nat.div_lt_iff_lt_mul (by omega)]
      nlinarith
    have hmin : min width height = height := by omega
    have hmax : max width height = width := by omega
    rw [hd, hmin, hmax, hfl]
    refine ⟨?_, ?_, ?_, ?_, ?_, ?_, ?_, ?_⟩
    · simp only; omega
    · simp
    · simp only; omega
    · intro _; exact ⟨rfl, rfl⟩
    · intro h'; exact absurd h h'
    · simp only; omega
    · intro Err resizeResize img hx hy
      unfold Resize
      have e1 : (img.Bounds.Dx % 2 ^ 64).toNat = width := by rw [hx]; omega
      have e2 : (img.Bounds.Dy % 2 ^ 64).toNat = height := by rw [hy]; omega
      simp only [e1, e2, hd]
    · refine ⟨?_, ?_, ?_, ?_⟩ <;>
        (rw [resizeDims_eq _ _ (by norm_num) (by norm_num) (by norm_num)]; rfl)
  · rw [if_neg h] at hd
    have hk : width * 500 / height ≤ 500 := by
      rw [Nat.div_le_iff_le_mul_add_pred (by omega)]
      nlinarith
    have hmin : min width height = width := by omega
    have hmax : max width height = height := by omega
    rw [hd, hmin, hmax, hfl]
    refine ⟨?_, ?_, ?_, ?_, ?_, ?_, ?_, ?_⟩
    · simp only; omega
    · simp only; omega
    · simp
    · intro h'; exact absurd h' h
    · intro _; exact ⟨rfl, rfl⟩
    · simp only; omega
    · intro Err resizeResize img hx hy
      unfold Resize
      have e1 : (img.Bounds.Dx % 2 ^ 64).toNat = width := by rw [hx]; omega
      have e2 : (img.Bounds.Dy % 2 ^ 64).toNat = height := by rw [hy]; omega
      simp only [e1, e2, hd]
    · refine ⟨?_, ?_, ?_, ?_⟩ <;>
        (rw [resizeDims_eq _ _ (by norm_num) (by norm_num) (by norm_num)]; rfl)

/-- Witness for C6: the landscape test image, 800×400. -/
theorem C6_resize_target_dimensions_witness :
    (1 ≤ 800 ∧ 1 ≤ 400 ∧ 800 * 400 < 2 ^ 63) ∧
      max (resizeDims 800 400).1 (resizeDims 800 400).2 = 500 :=
  ⟨by norm_num,
    (C6_resize_target_dimensions 800 400 (by norm_num) (by norm_num) (by norm_num)).1⟩

end imageprocessing

namespace imageprocessing

theorem resizeDims_7_4 : resizeDims 7 4 = (500, 285) := by
  rw [resizeDims_eq _ _ (by norm_num) (by norm_num) (by norm_num)]; rfl

theorem resizeDims_101_7 : resizeDims 101 7 = (500, 34) := by
  rw [resizeDims_eq _ _ (by norm_num) (by norm_num) (by norm_num)]; rfl

/-- C7, as stated, fails for a 7×4 image: `4 * 500 / 7` is 285.71…, which
rounds to 286, and `Resize` computes the height 285. -/
theorem C7_rounding_counterexample :
    ¬ (((min (resizeDims 7 4).1 (resizeDims 7 4).2 : ℕ) : ℤ)
        = max 1 (round (((min 7 4 : ℕ) : ℚ) * 500 / ((max 7 4 : ℕ) : ℚ)))) := by
  rw [resizeDims_7_4]
  have h : round (((min 7 4 : ℕ) : ℚ) * 500 / ((max 7 4 : ℕ) : ℚ)) = 286 := by
    rw [round_eq, Int.floor_eq_iff]
    norm_num
  rw [h]
  decide

/-- C7, amended. For an image of width and height at least 1 (fewer than `2^63`
pixels), the larger target dimension computed by `Resize` is 500 and the smaller one is
`floor(other * 500 / larger)`, with a floor of 1: the quotient is rounded down,
so this is the quotient rounded to the nearest integer when its fractional part
is below one half, and one less than that otherwise. -/
theorem C7_smaller_dimension_rounds_down (width height : ℕ) (hw : 1 ≤ width)
    (hh : 1 ≤ height) (hpix : width * height < 2 ^ 63) :
    max (resizeDims width height).1 (resizeDims width height).2 = 500 ∧
      ((min (resizeDims width height).1 (resizeDims width height).2 : ℕ) : ℤ)
        = max 1 ⌊((min width height : ℕ) : ℚ) * 500 / ((max width height : ℕ) : ℚ)⌋ ∧
      (Int.fract (((min width height : ℕ) : ℚ) * 500 / ((max width height : ℕ) : ℚ)) < 1 / 2 →
        ((min (resizeDims width height).1 (resizeDims width height).2 : ℕ) : ℤ)
          = max 1 (round (((min width height : ℕ) : ℚ) * 500 / ((max width height : ℕ) : ℚ)))) ∧
      (1 / 2 ≤ Int.fract (((min width height : ℕ) : ℚ) * 500 / ((max width height : ℕ) : ℚ)) →
        ((min (resizeDims width height).1 (resizeDims width height).2 : ℕ) : ℤ)
          = max 1 (round (((min width height : ℕ) : ℚ) * 500
              / ((max width height : ℕ) : ℚ)) - 1)) := by
  have hd := resizeDims_eq width height hw hh hpix
  have hfl : ∀ a b : ℕ, ⌊((a : ℕ) : ℚ) * 500 / ((b : ℕ) : ℚ)⌋ = ((a * 500 / b : ℕ) : ℤ) := by
    intro a b
    have : ((a : ℕ) : ℚ) * 500 = ((a * 500 : ℕ) : ℚ) := by push_cast; ring
    rw [this, ← Int.natCast_floor_eq_floor (by positivity), Nat.floor_div_eq_div]
  have hmain : max (resizeDims width height).1 (resizeDims width height).2 = 500 ∧
      ((min (resizeDims width height).1 (resizeDims width height).2 : ℕ) : ℤ)
        = max 1 ⌊((min width height : ℕ) : ℚ) * 500 / ((max width height : ℕ) : ℚ)⌋ := by
    rw [hfl]
    by_cases h : width > height
    · rw [if_pos h] at hd
      have hk : height * 500 / width < 500 := by
        rw [Nat.div_lt_iff_lt_mul (by omega)]
        nlinarith
      have hmin : min width height = height := by omega
      have hmax : max width height = width := by omega
      rw [hd, hmin, hmax]
      generalize height * 500 / width = k at hk
      simp only
      omega
    · rw [if_neg h] at hd
      have hk : width * 500 / height ≤ 500 := by
        rw [Nat.div_le_iff_le_mul_add_pred (by omega)]
        nlinarith
      have hmin : min width height = width := by omega
      have hmax : max width height = height := by omega
      rw [hd, hmin, hmax]
      generalize width * 500 / height = k at hk
      simp only
      omega
  refine ⟨hmain.1, hmain.2, ?_, ?_⟩
  · intro hf
    rw [hmain.2]
    congr 1
    symm
    rw [round_eq, Int.floor_eq_iff]
    have h1 := Int.self_sub_floor (((min width height : ℕ) : ℚ) * 500
      / ((max width height : ℕ) : ℚ))
    have h2 := Int.fract_nonneg (((min width height : ℕ) : ℚ) * 500
      / ((max width height : ℕ) : ℚ))
    constructor <;> linarith
  · intro hf
    rw [hmain.2]
    congr 1
    have : round (((min width height : ℕ) : ℚ) * 500 / ((max width height : ℕ) : ℚ))
        = ⌊((min width height : ℕ) : ℚ) * 500 / ((max width height : ℕ) : ℚ)⌋ + 1 := by
      rw [round_eq, Int.floor_eq_iff]
      have h1 := Int.self_sub_floor (((min width height : ℕ) : ℚ) * 500
        / ((max width height : ℕ) : ℚ))
      have h2 := Int.fract_lt_one (((min width height : ℕ) : ℚ) * 500
        / ((max width height : ℕ) : ℚ))
      rw [Int.cast_add, Int.cast_one]
      constructor <;> linarith
    rw [this]; ring

/-- Witness for C7: a 7×4 image. -/
theorem C7_smaller_dimension_rounds_down_witness :
    (1 ≤ 7 ∧ 1 ≤ 4 ∧ 7 * 4 < 2 ^ 63) ∧
      max (resizeDims 7 4).1 (resizeDims 7 4).2 = 500 :=
  ⟨by norm_num,
    (C7_smaller_dimension_rounds_down 7 4 (by norm_num) (by norm_num) (by norm_num)).1⟩

/-- C8, as stated, fails for a 101×7 image: the target is 500×34, and
`101/7 - 500/34` is below `-0.27`. -/
theorem C8_aspect_ratio_counterexample :
    ¬ (|((101 : ℕ) : ℚ) / ((7 : ℕ) : ℚ)
        - ((resizeDims 101 7).1 : ℚ) / ((resizeDims 101 7).2 : ℚ)| ≤ 1 / 10) := by
  rw [resizeDims_101_7]
  rw [abs_le]
  norm_num

/-- C8, amended. For an image of width and height at least 1 (fewer than `2^63`
pixels) whose width is at most 7 times its height, the target dimensions computed by
`Resize` preserve the aspect ratio within 0.1, as exact rationals. -/
theorem C8_aspect_ratio_within_tolerance (width height : ℕ) (hw : 1 ≤ width)
    (hh : 1 ≤ height) (hpix : width * height < 2 ^ 63)
    (hratio : width ≤ 7 * height) :
    |(width : ℚ) / (height : ℚ)
      - ((resizeDims width height).1 : ℚ) / ((resizeDims width height).2 : ℚ)| ≤ 1 / 10 := by
  have hd := resizeDims_eq width height hw hh hpix
  have hwq : (0 : ℚ) < width := by exact_mod_cast hw
  have hhq : (0 : ℚ) < height := by exact_mod_cast hh
  by_cases h : width > height
  · rw [if_pos h] at hd
    rw [hd]
    have hk1 : height * 500 / width * width ≤ height * 500 := Nat.div_mul_le_self _ _
    have hk2 : height * 500 < (height * 500 / width + 1) * width := by
      have h3 := Nat.div_add_mod (height * 500) width
      have h4 := Nat.mod_lt (height * 500) (show 0 < width by omega)
      nlinarith
    have hk3 : 71 ≤ height * 500 / width := by
      rw [Nat.le_div_iff_mul_le (by omega)]
      omega
    generalize height * 500 / width = k at hk1 hk2 hk3
    have hmax : max 1 k = k := by omega
    simp only [hmax]
    have hkq : (0 : ℚ) < k := by exact_mod_cast (show 0 < k by omega)
    have q1 : (k : ℚ) * width ≤ height * 500 := by exact_mod_cast hk1
    have q2 : (height : ℚ) * 500 < (k + 1) * width := by exact_mod_cast hk2
    have q3 : (71 : ℚ) ≤ k := by exact_mod_cast hk3
    have q4 : (width : ℚ) ≤ 7 * height := by exact_mod_cast hratio
    rw [abs_le]
    have e : (width : ℚ) / height - ((500 : ℕ) : ℚ) / k
        = (width * k - 500 * height) / (height * k) := by
      field_simp
      ring
    rw [e]
    have hpos : (0 : ℚ) < height * k := by positivity
    constructor
    · rw [le_div_iff₀ hpos]; nlinarith
    · rw [div_le_iff₀ hpos]; nlinarith
  · rw [if_neg h] at hd
    rw [hd]
    have hk1 : width * 500 / height * height ≤ width * 500 := Nat.div_mul_le_self _ _
    have hk2 : width * 500 < (width * 500 / height + 1) * height := by
      have h3 := Nat.div_add_mod (width * 500) height
      have h4 := Nat.mod_lt (width * 500) (show 0 < height by omega)
      nlinarith
    generalize width * 500 / height = k at hk1 hk2
    have q1 : (k : ℚ) * height ≤ width * 500 := by exact_mod_cast hk1
    have q2 : (width : ℚ) * 500 < (k + 1) * height := by exact_mod_cast hk2
    have q5 : (width : ℚ) ≤ height := by exact_mod_cast (show width ≤ height by omega)
    rw [abs_le]
    rcases Nat.eq_zero_or_pos k with rfl | hkpos
    · have e : (width : ℚ) / height - ((max 1 0 : ℕ) : ℚ) / ((500 : ℕ) : ℚ)
          = (500 * width - height) / (500 * height) := by
        simp only [show max 1 0 = 1 by rfl]
        field_simp
        ring
      rw [e]
      have hpos : (0 : ℚ) < 500 * height := by positivity
      simp only [Nat.cast_zero, zero_add, one_mul, zero_mul] at q1 q2
      constructor
      · rw [le_div_iff₀ hpos]; nlinarith
      · rw [div_le_iff₀ hpos]; nlinarith
    · have hmax : max 1 k = k := by omega
      have e : (width : ℚ) / height - ((max 1 k : ℕ) : ℚ) / ((500 : ℕ) : ℚ)
          = (500 * width - k * height) / (500 * height) := by
        rw [hmax]
        field_simp
        ring
      rw [e]
      have hpos : (0 : ℚ) < 500 * height := by positivity
      constructor
      · rw [le_div_iff₀ hpos]; nlinarith
      · rw [div_le_iff₀ hpos]; nlinarith

/-- Witness for C8: the landscape test image, 800×400. -/
theorem C8_aspect_ratio_within_tolerance_witness :
    (1 ≤ 800 ∧ 1 ≤ 400 ∧ 800 * 400 < 2 ^ 63 ∧ 800 ≤ 7 * 400) ∧
      |((800 : ℕ) : ℚ) / ((400 : ℕ) : ℚ)
        - ((resizeDims 800 400).1 : ℚ) / ((resizeDims 800 400).2 : ℚ)| ≤ 1 / 10 :=
  ⟨by norm_num,
    C8_aspect_ratio_within_tolerance 800 400 (by norm_num) (by norm_num) (by norm_num)
      (by norm_num)⟩

end imageprocessing

namespace imageprocessing

theorem GrayModelConvert_idem (c : Color) :
    GrayModelConvert (GrayModelConvert c) = GrayModelConvert c := by
  cases c <;> rfl

theorem GrayModelConvert_eq_Gray (c : Color) :
    GrayModelConvert c = .Gray (GrayModelConvert c).grayY := by
  cases c <;> rfl

/-- Without overflow `wrapInt` is the identity. -/
theorem wrapInt_eq (z : ℤ) (h0 : 0 ≤ z) (h1 : z < 2 ^ 63) : wrapInt z = z := by
  unfold wrapInt
  omega

/-- A point of the rectangle, by its column and row. -/
theorem Rectangle.Contains_offset (b : Rectangle) (i j : ℕ)
    (hi : (i : ℤ) < b.Max.X - b.Min.X) (hj : (j : ℤ) < b.Max.Y - b.Min.Y) :
    b.Contains (b.Min.X + i) (b.Min.Y + j) = true := by
  simp only [Rectangle.Contains, Bool.and_eq_true, decide_eq_true_eq]
  omega

/-- The pixel offset of column `i` of row `j` is row-major. -/
theorem Gray.PixOffset_inside (g : Gray) (b : Rectangle) (hR : g.Rect = b) (w : ℕ)
    (hS : g.Stride = w) (i j : ℕ) :
    (g.PixOffset (b.Min.X + i) (b.Min.Y + j)).toNat = j * w + i := by
  unfold Gray.PixOffset
  rw [hR, hS]
  have e1 : b.Min.Y + (j : ℤ) - b.Min.Y = j := by ring
  have e2 : b.Min.X + (i : ℤ) - b.Min.X = i := by ring
  rw [e1, e2, mul_one]
  have : ((j : ℤ) * (w : ℤ) + (i : ℤ)) = ((j * w + i : ℕ) : ℤ) := by push_cast; ring
  rw [this, Int.toNat_ofNat]

/-- Method `Set` inside the rectangle writes one byte, at row-major position. -/
theorem Gray.Set_inside (g : Gray) (b : Rectangle) (hR : g.Rect = b) (w : ℕ)
    (hS : g.Stride = w) (i j : ℕ) (hi : (i : ℤ) < b.Max.X - b.Min.X)
    (hj : (j : ℤ) < b.Max.Y - b.Min.Y) (c : Color) :
    g.Set (b.Min.X + i) (b.Min.Y + j) c
      = { g with Pix := g.Pix.set (j * w + i) (GrayModelConvert c).grayY } := by
  have hc : g.Rect.Contains (b.Min.X + i) (b.Min.Y + j) = true := by
    rw [hR]; exact Rectangle.Contains_offset b i j hi hj
  have ho := Gray.PixOffset_inside g b hR w hS i j
  unfold Gray.Set
  rw [hc]
  simp only [Bool.not_true, Bool.false_eq_true, if_false, ho]

theorem grayscaleLoops_eq_foldl (img : Image) (g : Gray) :
    grayscaleLoops img g
      = (List.range (img.Bounds.Max.Y - img.Bounds.Min.Y).toNat).foldl (setRow img) g := by
  unfold grayscaleLoops setRow setPixel
  rfl

/-- The inner loop of `Grayscale`: the first `n` columns of row `j`. -/
theorem Grayscale_columns (img : Image) (w : ℕ) (j : ℕ)
    (hj : (j : ℤ) < img.Bounds.Max.Y - img.Bounds.Min.Y) (n : ℕ)
    (hn : (n : ℤ) ≤ img.Bounds.Max.X - img.Bounds.Min.X) (g : Gray)
    (hR : g.Rect = img.Bounds) (hS : g.Stride = w) :
    ((List.range n).foldl (setPixel img j) g).Rect = img.Bounds ∧
      ((List.range n).foldl (setPixel img j) g).Stride = w ∧
      ((List.range n).foldl (setPixel img j) g).Pix.length = g.Pix.length ∧
      ∀ idx : ℕ,
        ((List.range n).foldl (setPixel img j) g).Pix[idx]?
          = if j * w ≤ idx ∧ idx < j * w + n ∧ idx < g.Pix.length then
              some (pixelValue img (idx - j * w) j)
            else g.Pix[idx]? := by
  induction n with
  | zero =>
    refine ⟨hR, hS, rfl, ?_⟩
    intro idx
    have : ¬ (j * w ≤ idx ∧ idx < j * w + 0 ∧ idx < g.Pix.length) := by omega
    simp only [List.range_zero, List.foldl_nil, if_neg this]
  | succ n ih =>
    obtain ⟨i1, i2, i3, i4⟩ := ih (by omega)
    rw [List.range_succ, List.foldl_append]
    simp only [List.foldl_cons, List.foldl_nil]
    generalize (List.range n).foldl (setPixel img j) g = g' at i1 i2 i3 i4
    unfold setPixel
    rw [Gray.Set_inside _ img.Bounds i1 w i2 n j (by omega) hj]
    refine ⟨i1, i2, ?_, ?_⟩
    · simp only [List.length_set]; exact i3
    · intro idx
      simp only [List.getElem?_set, i3, i4, GrayModelConvert_idem]
      generalize j * w = base
      by_cases e : base + n = idx
      · subst e
        rw [if_pos rfl]
        by_cases hl : base + n < g.Pix.length
        · have c1 : base ≤ base + n ∧ base + n < base + (n + 1) ∧
              base + n < g.Pix.length := by omega
          rw [if_pos hl, if_pos c1]
          simp only [Nat.add_sub_cancel_left, pixelValue]
        · have c1 : ¬ (base ≤ base + n ∧ base + n < base + (n + 1) ∧
              base + n < g.Pix.length) := by omega
          rw [if_neg hl, if_neg c1, List.getElem?_eq_none]
          omega
      · simp only [if_neg e]
        by_cases c : base ≤ idx ∧ idx < base + n ∧ idx < g.Pix.length
        · have c1 : base ≤ idx ∧ idx < base + (n + 1) ∧ idx < g.Pix.length := by omega
          rw [if_pos c, if_pos c1]
        · have c1 : ¬ (base ≤ idx ∧ idx < base + (n + 1) ∧ idx < g.Pix.length) := by omega
          rw [if_neg c, if_neg c1]

/-- The outer loop of `Grayscale`: the first `m` rows, on a buffer `g0` of
`w * h` bytes. -/
theorem Grayscale_rows (img : Image) (w h : ℕ)
    (hw : img.Bounds.Max.X - img.Bounds.Min.X = w) (hh : img.Bounds.Max.Y - img.Bounds.Min.Y = h)
    (g0 : Gray) (hR0 : g0.Rect = img.Bounds) (hS0 : g0.Stride = w)
    (hL0 : g0.Pix.length = w * h) (m : ℕ) (hm : m ≤ h) :
    ((List.range m).foldl (setRow img) g0).Rect = img.Bounds ∧
      ((List.range m).foldl (setRow img) g0).Stride = w ∧
      ((List.range m).foldl (setRow img) g0).Pix.length = w * h ∧
      ∀ idx : ℕ,
        ((List.range m).foldl (setRow img) g0).Pix[idx]?
          = if idx < m * w then some (pixelValue img (idx % w) (idx / w))
            else g0.Pix[idx]? := by
  induction m with
  | zero =>
    refine ⟨hR0, hS0, hL0, ?_⟩
    intro idx
    simp
  | succ m ih =>
    obtain ⟨i1, i2, i3, i4⟩ := ih (by omega)
    rw [List.range_succ, List.foldl_append]
    simp only [List.foldl_cons, List.foldl_nil]
    generalize (List.range m).foldl (setRow img) g0 = g at i1 i2 i3 i4
    unfold setRow
    have hW : (img.Bounds.Max.X - img.Bounds.Min.X).toNat = w := by omega
    rw [hW]
    obtain ⟨c1, c2, c3, c4⟩ :=
      Grayscale_columns img w m (by omega) w (by omega) g i1 i2
    refine ⟨c1, c2, by rw [c3, i3], ?_⟩
    intro idx
    rw [c4, i3, i4]
    have hmul : (m + 1) * w ≤ w * h := by
      rw [Nat.mul_comm w]
      exact Nat.mul_le_mul_right _ hm
    have hsucc : (m + 1) * w = m * w + w := Nat.succ_mul _ _
    by_cases a : idx < m * w
    · have n1 : ¬ (m * w ≤ idx ∧ idx < m * w + w ∧ idx < w * h) := by omega
      have n2 : idx < (m + 1) * w := by omega
      rw [if_neg n1, if_pos a, if_pos n2]
    · by_cases b : idx < m * w + w
      · have n1 : m * w ≤ idx ∧ idx < m * w + w ∧ idx < w * h := by omega
        have n2 : idx < (m + 1) * w := by omega
        rw [if_pos n1, if_pos n2]
        have hdiv : idx / w = m := Nat.div_eq_of_lt_le (by omega) (by
          show idx < (m + 1) * w
          omega)
        have hmod : idx % w = idx - m * w := by
          rw [Nat.mod_def, hdiv, Nat.mul_comm]
        rw [hdiv, hmod]
      · have n1 : ¬ (m * w ≤ idx ∧ idx < m * w + w ∧ idx < w * h) := by omega
        have n2 : ¬ idx < (m + 1) * w := by omega
        rw [if_neg n1, if_neg a, if_neg n2]

/-- For well-formed bounds whose buffer fits, `image.NewGray` returns its buffer. -/
theorem NewGray_eq_some (maxAlloc : ℕ) (b : Rectangle) (w h : ℕ)
    (hw : b.Max.X - b.Min.X = w) (hh : b.Max.Y - b.Min.Y = h)
    (hdx : w < 2 ^ 63) (hdy : h < 2 ^ 63) (hov : w * h < 2 ^ 63) (hmem : w * h ≤ maxAlloc) :
    NewGray maxAlloc b = some (newGrayBuffer b) ∧ (newGrayBuffer b).Rect = b ∧
      (newGrayBuffer b).Stride = w ∧ (newGrayBuffer b).Pix.length = w * h := by
  have ex : b.Dx = w := by
    unfold Rectangle.Dx; rw [hw]; exact wrapInt_eq _ (by omega) (by omega)
  have ey : b.Dy = h := by
    unfold Rectangle.Dy; rw [hh]; exact wrapInt_eq _ (by omega) (by omega)
  have hprod : b.Dx * b.Dy = ((w * h : ℕ) : ℤ) := by rw [ex, ey]; push_cast; ring
  refine ⟨?_, rfl, ?_, ?_⟩
  · unfold NewGray
    rw [hprod, ex, ey]
    have n1 : ¬ ((w : ℤ) < 0 ∨ (h : ℤ) < 0 ∨ (2 : ℤ) ^ 63 ≤ ((w * h : ℕ) : ℤ)) := by omega
    have n2 : ¬ ((maxAlloc : ℤ) < ((w * h : ℕ) : ℤ)) := by omega
    rw [if_neg n1, if_neg n2]
  · show b.Dx = w
    exact ex
  · show (List.replicate (b.Dx * b.Dy).toNat 0).length = w * h
    rw [hprod, List.length_replicate, Int.toNat_ofNat]

/-- When `Grayscale` returns, it returns `GrayscaleReturned`. -/
theorem Grayscale_eq_some (maxAlloc : ℕ) (img out : Image)
    (h : Grayscale maxAlloc img = some out) : out = GrayscaleReturned img := by
  unfold Grayscale at h
  dsimp only at h
  unfold NewGray at h
  split_ifs at h with h1 h2
  simp only [Option.some.injEq] at h
  rw [← h]; rfl


/-- C9, as stated, fails for an image whose bounds have `Max.X < Min.X`:
`image.NewGray` panics, so `Grayscale` returns no image at all. -/
theorem C9_malformed_bounds_counterexample :
    Grayscale (2 ^ 48) exampleMalformedImage = none ∧
      ¬ ∃ out : Image, Grayscale (2 ^ 48) exampleMalformedImage = some out ∧
        out.Bounds = exampleMalformedImage.Bounds := by
  have h : Grayscale (2 ^ 48) exampleMalformedImage = none := by
    unfold Grayscale
    have hn : NewGray (2 ^ 48) exampleMalformedImage.Bounds = none := by
      unfold NewGray
      have : exampleMalformedImage.Bounds.Dx < 0 := by
        show wrapInt ((-1 : ℤ) - 0) < 0
        unfold wrapInt
        norm_num
      rw [if_pos (Or.inl this)]
    dsimp only
    rw [hn]
  refine ⟨h, ?_⟩
  rintro ⟨out, hout, _⟩
  rw [h] at hout
  exact Option.noConfusion hout

/-- C9, amended. For every input image whose bounds are well-formed
(`Min ≤ Max`) and whose buffer `image.NewGray` can build (both dimensions and
their product below `2^63`, and the product within the allocation limit of the
runtime), `Grayscale` returns a `Gray` image with the bounds of the input, one
byte per pixel of those bounds, whose pixel at every `(x, y)` inside the bounds
is `color.GrayModel.Convert` of the input pixel at `(x, y)`; every pixel of the
result is a single gray value. -/
theorem C9_grayscale_bounds_and_pixels (maxAlloc : ℕ) (img : Image)
    (hx : img.Bounds.Min.X ≤ img.Bounds.Max.X) (hy : img.Bounds.Min.Y ≤ img.Bounds.Max.Y)
    (hdx : img.Bounds.Max.X - img.Bounds.Min.X < 2 ^ 63)
    (hdy : img.Bounds.Max.Y - img.Bounds.Min.Y < 2 ^ 63)
    (hov : (img.Bounds.Max.X - img.Bounds.Min.X) * (img.Bounds.Max.Y - img.Bounds.Min.Y)
      < 2 ^ 63)
    (hmem : (img.Bounds.Max.X - img.Bounds.Min.X) * (img.Bounds.Max.Y - img.Bounds.Min.Y)
      ≤ maxAlloc) :
    ∃ g : Gray, Grayscale maxAlloc img = some g.toImage ∧
      g.toImage.Bounds = img.Bounds ∧
      g.Rect = img.Bounds ∧
      g.Pix.length = (img.Bounds.Max.X - img.Bounds.Min.X).toNat
        * (img.Bounds.Max.Y - img.Bounds.Min.Y).toNat ∧
      (∀ x y : ℤ, img.Bounds.Contains x y = true →
        g.toImage.At x y = GrayModelConvert (img.At x y)) ∧
      (∀ x y : ℤ, ∃ Y : ℕ, g.toImage.At x y = Color.Gray Y) := by
  obtain ⟨w, hw⟩ := Int.eq_ofNat_of_zero_le
    (show 0 ≤ img.Bounds.Max.X - img.Bounds.Min.X by omega)
  obtain ⟨h, hh⟩ := Int.eq_ofNat_of_zero_le
    (show 0 ≤ img.Bounds.Max.Y - img.Bounds.Min.Y by omega)
  have hprod : (img.Bounds.Max.X - img.Bounds.Min.X) * (img.Bounds.Max.Y - img.Bounds.Min.Y)
      = ((w * h : ℕ) : ℤ) := by rw [hw, hh]; push_cast; ring
  rw [hprod] at hov hmem
  obtain ⟨n1, n2, n3, n4⟩ := NewGray_eq_some maxAlloc img.Bounds w h hw hh (by omega) (by omega)
    (by exact_mod_cast hov) (by exact_mod_cast hmem)
  have hH : (img.Bounds.Max.Y - img.Bounds.Min.Y).toNat = h := by omega
  have hW : (img.Bounds.Max.X - img.Bounds.Min.X).toNat = w := by omega
  obtain ⟨r1, r2, r3, r4⟩ := Grayscale_rows img w h hw hh (newGrayBuffer img.Bounds) n2 n3 n4
    h (le_refl h)
  have hfold := grayscaleLoops_eq_foldl img (newGrayBuffer img.Bounds)
  rw [hH] at hfold
  rw [← hfold] at r1 r2 r3 r4
  have hG : Grayscale maxAlloc img
      = some (grayscaleLoops img (newGrayBuffer img.Bounds)).toImage := by
    unfold Grayscale
    dsimp only
    rw [n1]
  refine ⟨grayscaleLoops img (newGrayBuffer img.Bounds), hG, r1, r1, ?_, ?_, ?_⟩
  · rw [r3, hW, hH]
  · intro x y hc
    have hc' := hc
    simp only [Rectangle.Contains, Bool.and_eq_true, decide_eq_true_eq] at hc'
    obtain ⟨i, hi⟩ := Int.eq_ofNat_of_zero_le (show 0 ≤ x - img.Bounds.Min.X by omega)
    obtain ⟨j, hj⟩ := Int.eq_ofNat_of_zero_le (show 0 ≤ y - img.Bounds.Min.Y by omega)
    have ex : x = img.Bounds.Min.X + i := by omega
    have ey : y = img.Bounds.Min.Y + j := by omega
    have hiW : i < w := by omega
    have hjH : j < h := by omega
    have hoff := Gray.PixOffset_inside (grayscaleLoops img (newGrayBuffer img.Bounds))
      img.Bounds r1 w r2 i j
    have hidx : j * w + i < h * w := by
      have h1 : (j + 1) * w ≤ h * w := Nat.mul_le_mul_right _ hjH
      rw [Nat.succ_mul] at h1
      generalize h * w = T at h1
      generalize j * w = S at h1
      omega
    have hget := r4 (j * w + i)
    rw [if_pos hidx] at hget
    have hmod : (j * w + i) % w = i := by
      rw [Nat.mul_comm, Nat.mul_add_mod, Nat.mod_eq_of_lt hiW]
    have hdiv : (j * w + i) / w = j := by
      rw [Nat.mul_comm, Nat.mul_add_div (by omega), Nat.div_eq_of_lt hiW, Nat.add_zero]
    rw [hmod, hdiv] at hget
    show Color.Gray ((grayscaleLoops img (newGrayBuffer img.Bounds)).GrayAt x y)
      = GrayModelConvert (img.At x y)
    unfold Gray.GrayAt
    rw [r1, hc]
    simp only [Bool.not_true, Bool.false_eq_true, if_false]
    rw [ex, ey, hoff, List.getD_eq_getElem?_getD, hget, Option.getD_some]
    unfold pixelValue
    exact (GrayModelConvert_eq_Gray _).symm
  · intro x y
    exact ⟨(grayscaleLoops img (newGrayBuffer img.Bounds)).GrayAt x y, rfl⟩

/-- Witness for C9: a 2×2 image whose bounds start at `(-1, 2)`. -/
theorem C9_grayscale_bounds_and_pixels_witness :
    ((-1 : ℤ) ≤ 1 ∧ (2 : ℤ) ≤ 4 ∧ (1 : ℤ) - (-1) < 2 ^ 63 ∧ (4 : ℤ) - 2 < 2 ^ 63 ∧
        ((1 : ℤ) - (-1)) * (4 - 2) < 2 ^ 63 ∧ ((1 : ℤ) - (-1)) * (4 - 2) ≤ ((2 ^ 48 : ℕ) : ℤ)) ∧
      ∃ g : Gray, Grayscale (2 ^ 48) exampleSmallImage = some g.toImage ∧
        g.toImage.Bounds = exampleSmallImage.Bounds ∧
        g.Rect = exampleSmallImage.Bounds ∧
        g.Pix.length = (exampleSmallImage.Bounds.Max.X - exampleSmallImage.Bounds.Min.X).toNat
          * (exampleSmallImage.Bounds.Max.Y - exampleSmallImage.Bounds.Min.Y).toNat ∧
        (∀ x y : ℤ, exampleSmallImage.Bounds.Contains x y = true →
          g.toImage.At x y = GrayModelConvert (exampleSmallImage.At x y)) ∧
        (∀ x y : ℤ, ∃ Y : ℕ, g.toImage.At x y = Color.Gray Y) :=
  ⟨by norm_num,
    C9_grayscale_bounds_and_pixels (2 ^ 48) exampleSmallImage (by decide) (by decide)
      (by decide) (by decide) (by decide) (by decide)⟩

end imageprocessing
